import Mathlib

/-!
A shallow embedding of `src/evalexpr.py`: a lexer, a recursive-descent
compiler emitting a linear instruction tape, and a stack machine that
executes the tape against a mutable environment.

Modelling conventions, stated once here:
* Python numbers (`int` and `float`) are modelled as a kind tag
  (`isFloat`) together with an exact rational value `Q` (a raw
  numerator/denominator pair with arithmetic that keeps denominators
  positive; Mathlib's normalising `Rat` arithmetic is opaque to kernel
  reduction, so it cannot drive concrete executions).  Float
  arithmetic is therefore exact where CPython rounds to the nearest
  IEEE double; every concrete computation below stays inside exactly
  representable values, and no theorem depends on rounding.
* Python `bool` is a subclass of `int`; arithmetic and comparisons
  coerce booleans through `asNum` exactly as CPython does.
* The operand stack is a `List Value` whose head is the top of the
  Python list (`append`/`pop` act on the head here).
* The environment is the Python dict: a finite map from (hashable)
  values to values, modelled as a function `Value → Option Value`
  updated pointwise.  (CPython would reject an unhashable key such as a
  list with a `TypeError`; no compiled tape ever stores one.)
* `math.sin` is a transcendental host function; its numeric graph is
  outside the rational model, so every definition that can reach it is
  parametrised by an arbitrary function `sq : Q → Q` standing for it.
  No claim depends on the values of `sin`.
-/

namespace EvalExpr

/-- An exact rational as a raw numerator/denominator pair.  Every
value built by the lexer or the arithmetic below keeps `den` positive,
so `qEq`/`qLt`/`qLe` by cross multiplication are the true rational
comparisons on everything a program can compute. -/
structure Q where
  num : Int
  den : Int
deriving DecidableEq

/-- The rational `n / 1`. -/
def qOfInt (n : Int) : Q := ⟨n, 1⟩

/-- `a + b`. -/
def qAdd (a b : Q) : Q := ⟨a.num * b.den + b.num * a.den, a.den * b.den⟩

/-- `a - b`. -/
def qSub (a b : Q) : Q := ⟨a.num * b.den - b.num * a.den, a.den * b.den⟩

/-- `a * b`. -/
def qMul (a b : Q) : Q := ⟨a.num * b.num, a.den * b.den⟩

/-- `-a`. -/
def qNeg (a : Q) : Q := ⟨-a.num, a.den⟩

/-- `a / b` (meaningful when `b` is nonzero), with the sign moved into
the numerator so a positive denominator stays positive. -/
def qDiv (a b : Q) : Q :=
  if b.num < 0 then ⟨-(a.num * b.den), a.den * -b.num⟩
  else ⟨a.num * b.den, a.den * b.num⟩

/-- Numeric equality by cross multiplication. -/
def qEq (a b : Q) : Bool := a.num * b.den == b.num * a.den

/-- Numeric `<` by cross multiplication. -/
def qLt (a b : Q) : Bool := decide (a.num * b.den < b.num * a.den)

/-- Numeric `<=` by cross multiplication. -/
def qLe (a b : Q) : Bool := decide (a.num * b.den ≤ b.num * a.den)

/-- Is the number zero? -/
def qIsZero (a : Q) : Bool := a.num == 0

/-- Host built-in callables seeded into the environment by `evaluate`
(`math.sin` and Python's `print`). -/
inductive Builtin
  | sin
  | print
deriving DecidableEq

/-- The runtime value domain of the interpreter: Python numbers
(int/float), booleans, `None`, lists, strings (which appear on the
stack as variable names pushed by `LValue`), and host callables. -/
inductive Value
  | num (isFloat : Bool) (val : Q)
  | bool (b : Bool)
  | null
  | list (elems : List Value)
  | name (s : String)
  | callable (b : Builtin)

/-- Numeric view: Python treats `bool` as an `int` (`True == 1`,
`False == 0`) in arithmetic and comparisons. -/
def asNum : Value → Option (Bool × Q)
  | .num f q => some (f, q)
  | .bool b => some (false, qOfInt (if b then 1 else 0))
  | _ => none

/-- Integer view used by Python sequence repetition (`list * int`,
`str * int`): an int-kind whole number or a bool. -/
def asSeqCount : Value → Option Int
  | .num false q => if q.den = 1 then some q.num else none
  | .bool b => some (if b then 1 else 0)
  | _ => none

/-- `xs * n` for a Python sequence: `n` copies, empty when `n <= 0`. -/
def seqRepeat (n : Int) (l : List Value) : List Value :=
  (List.replicate n.toNat l).flatten

/-- `s * n` for a Python string. -/
def strRepeat (n : Int) (s : String) : String :=
  (List.replicate n.toNat s).foldl (· ++ ·) ""

/-- `BINARY['+']`: numeric addition (floatness is contagious), list
concatenation, string concatenation; anything else is a `TypeError`. -/
def pyAdd (x y : Value) : Option Value :=
  match asNum x, asNum y with
  | some (f1, q1), some (f2, q2) => some (.num (f1 || f2) (qAdd q1 q2))
  | _, _ =>
    match x, y with
    | .list l1, .list l2 => some (.list (l1 ++ l2))
    | .name s1, .name s2 => some (.name (s1 ++ s2))
    | _, _ => none

/-- `BINARY['-']`: numeric subtraction only. -/
def pySub (x y : Value) : Option Value :=
  match asNum x, asNum y with
  | some (f1, q1), some (f2, q2) => some (.num (f1 || f2) (qSub q1 q2))
  | _, _ => none

/-- `BINARY['*']`: numeric product, or Python sequence repetition when
one operand is a list/string and the other an integer. -/
def pyMul (x y : Value) : Option Value :=
  match asNum x, asNum y with
  | some (f1, q1), some (f2, q2) => some (.num (f1 || f2) (qMul q1 q2))
  | _, _ =>
    match x, y with
    | .list l, v => (asSeqCount v).map fun n => .list (seqRepeat n l)
    | v, .list l => (asSeqCount v).map fun n => .list (seqRepeat n l)
    | .name s, v => (asSeqCount v).map fun n => .name (strRepeat n s)
    | v, .name s => (asSeqCount v).map fun n => .name (strRepeat n s)
    | _, _ => none

/-- `BINARY['/']`: Python true division.  The result is always
float-kind regardless of the operand kinds; division by zero is a
`ZeroDivisionError`. -/
def pyDiv (x y : Value) : Option Value :=
  match asNum x, asNum y with
  | some (_, q1), some (_, q2) =>
    if qIsZero q2 then none else some (.num true (qDiv q1 q2))
  | _, _ => none

/-- Unary minus (`NEG`): defined on numerics only (`-True == -1`). -/
def pyNeg (x : Value) : Option Value :=
  match asNum x with
  | some (f, q) => some (.num f (qNeg q))
  | none => none

mutual

/-- Python `==` on this value domain: numeric comparison across
int/float/bool, structural equality on lists, everything else by kind
(cross-kind `==` is `False`, never an error). -/
def pyEq : Value → Value → Bool
  | .num _ q1, .num _ q2 => qEq q1 q2
  | .num _ q1, .bool b => qEq q1 (qOfInt (if b then 1 else 0))
  | .bool b, .num _ q2 => qEq (qOfInt (if b then 1 else 0)) q2
  | .bool b1, .bool b2 => b1 == b2
  | .null, .null => true
  | .list l1, .list l2 => listPyEq l1 l2
  | .name s1, .name s2 => s1 == s2
  | .callable b1, .callable b2 => b1 == b2
  | _, _ => false

/-- Elementwise Python `==` of two lists. -/
def listPyEq : List Value → List Value → Bool
  | [], [] => true
  | x :: xs, y :: ys => pyEq x y && listPyEq xs ys
  | _, _ => false

end

/-- Python `<` on strings: code-point lexicographic order. -/
def charsLt : List Char → List Char → Bool
  | [], [] => false
  | [], _ :: _ => true
  | _ :: _, [] => false
  | c :: cs, d :: ds => if c = d then charsLt cs ds else decide (c < d)

/-- Python `<=` on strings. -/
def charsLe : List Char → List Char → Bool
  | [], _ => true
  | _ :: _, [] => false
  | c :: cs, d :: ds => if c = d then charsLe cs ds else decide (c < d)

mutual

/-- Python `<`: numeric order (bools coerce), string order,
lexicographic list order; any other pair is a `TypeError` (`none`). -/
def pyLt : Value → Value → Option Bool
  | .list l1, .list l2 => listPyLt l1 l2
  | .name s1, .name s2 => some (charsLt s1.data s2.data)
  | x, y =>
    match asNum x, asNum y with
    | some (_, q1), some (_, q2) => some (qLt q1 q2)
    | _, _ => none

/-- Lexicographic `<` on lists: skip the longest `==` prefix, then
compare the first differing elements with `<`. -/
def listPyLt : List Value → List Value → Option Bool
  | [], [] => some false
  | [], _ :: _ => some true
  | _ :: _, [] => some false
  | x :: xs, y :: ys => if pyEq x y then listPyLt xs ys else pyLt x y

end

mutual

/-- Python `<=`, same shape as `pyLt`. -/
def pyLe : Value → Value → Option Bool
  | .list l1, .list l2 => listPyLe l1 l2
  | .name s1, .name s2 => some (charsLe s1.data s2.data)
  | x, y =>
    match asNum x, asNum y with
    | some (_, q1), some (_, q2) => some (qLe q1 q2)
    | _, _ => none

/-- Lexicographic `<=` on lists. -/
def listPyLe : List Value → List Value → Option Bool
  | [], _ => some true
  | _ :: _, [] => some false
  | x :: xs, y :: ys => if pyEq x y then listPyLe xs ys else pyLt x y

end

/-- Python truthiness, the test used by `OnFalseJump`: `False`,
`None`, numeric zero, the empty list and the empty string are falsy;
everything else (including every callable) is truthy. -/
def truthy : Value → Bool
  | .num _ q => !qIsZero q
  | .bool b => b
  | .null => false
  | .list l => !l.isEmpty
  | .name s => s != ""
  | .callable _ => true

/-!
## The instruction tape

The Python tape is a heterogeneous list: `RValue`, `ID`, `LValue`,
`OnFalseJump` and `Jump` objects plus raw strings (`"+"`, `"NEG"`,
`"DROP"`, `"="`, `"[]"`, `"APPEND"`, `"CALL"`, relational operators).
`Instr.str` keeps the raw-string instructions stringly typed exactly as
the source does, so the interpreter's dictionary dispatch (including
its `Bad instruction` dead end) is preserved.
-/

/-- One element of the compiled tape. -/
inductive Instr
  | rval (v : Value)
  | idload (nm : String)
  | lval (nm : Option String)
  | onFalseJump (target : Nat)
  | jump (target : Nat)
  | str (s : String)

/-- The keys of the `BINARY` dispatch dictionary. -/
def binKeys : List String :=
  ["+", "-", "*", "/", "APPEND", "CALL", "<", ">", "<=", ">=", "==", "!="]

/-- `func(*args)` for the two host callables.  `math.sin` demands one
numeric argument and returns a float (its graph is the parameter
`sq`); `print` accepts anything, records what it printed, and returns
`None`.  A non-list argument pack or a non-callable callee is a
`TypeError`. -/
def applyCall (sq : Q → Q) (f args : Value) : Option (Value × List (List Value)) :=
  match f, args with
  | .callable .sin, .list [a] =>
    match asNum a with
    | some (_, q) => some (.num true (sq q), [])
    | none => none
  | .callable .sin, .list _ => none
  | .callable .print, .list l => some (.null, [l])
  | _, _ => none

/-- `BINARY[op](x, y)`, together with the list of `print` outputs the
application produced (empty except for `CALL` of `print`). -/
def applyBin (sq : Q → Q) (op : String) (x y : Value) :
    Option (Value × List (List Value)) :=
  match op with
  | "+" => (pyAdd x y).map fun v => (v, [])
  | "-" => (pySub x y).map fun v => (v, [])
  | "*" => (pyMul x y).map fun v => (v, [])
  | "/" => (pyDiv x y).map fun v => (v, [])
  | "APPEND" =>
    match x with
    | .list l => some (.list (l ++ [y]), [])
    | _ => none
  | "CALL" => applyCall sq x y
  | "<" => (pyLt x y).map fun v => (.bool v, [])
  | ">" => (pyLt y x).map fun v => (.bool v, [])
  | "<=" => (pyLe x y).map fun v => (.bool v, [])
  | ">=" => (pyLe y x).map fun v => (.bool v, [])
  | "==" => some (.bool (pyEq x y), [])
  | "!=" => some (.bool (!pyEq x y), [])
  | _ => none

/-- The state of `evaluate`'s loop: program counter, operand stack
(top at the head), the environment dict, and the trace of `print`
calls (each entry is one call's argument list). -/
structure VMState where
  pc : Nat
  stack : List Value
  env : Value → Option Value
  out : List (List Value)

/-- Runtime failures of `evaluate`: popping an empty stack
(`IndexError` in CPython), an unbound variable (`KeyError`), an
operation that raises (`TypeError` / `ZeroDivisionError`), and the
explicit `Bad instruction` exception. -/
inductive Fault
  | underflow
  | nameFault (nm : String)
  | opFault
  | badInstr
deriving DecidableEq

/-- One iteration of `evaluate`'s dispatch loop; a no-op when the
program counter is past the end of the tape.  Branch order follows the
source: `RValue`, `ID`, `cur in BINARY`, `"NEG"`, `LValue`, `'='`,
`"DROP"`, `"[]"`, `OnFalseJump`, `Jump`, else `Bad instruction`.
The dict update in the `'='` branch keys on Python equality (`pyEq`),
as CPython dicts do. -/
def step (sq : Q → Q) (tape : List Instr) (s : VMState) : Except Fault VMState :=
  match tape.get? s.pc with
  | none => .ok s
  | some inst =>
    match inst with
    | .rval v => .ok { s with pc := s.pc + 1, stack := v :: s.stack }
    | .idload nm =>
      match s.env (.name nm) with
      | some v => .ok { s with pc := s.pc + 1, stack := v :: s.stack }
      | none => .error (.nameFault nm)
    | .str op =>
      if op ∈ binKeys then
        match s.stack with
        | y :: x :: rest =>
          match applyBin sq op x y with
          | some (v, outs) =>
            .ok { pc := s.pc + 1, stack := v :: rest, env := s.env, out := s.out ++ outs }
          | none => .error .opFault
        | _ => .error .underflow
      else if op = "NEG" then
        match s.stack with
        | v :: rest =>
          match pyNeg v with
          | some w => .ok { s with pc := s.pc + 1, stack := w :: rest }
          | none => .error .opFault
        | [] => .error .underflow
      else if op = "=" then
        match s.stack with
        | value :: varname :: rest =>
          let env2 : Value → Option Value :=
            fun k => if pyEq k varname then some value else s.env k
          .ok { pc := s.pc + 1, stack := value :: rest, env := env2, out := s.out }
        | _ => .error .underflow
      else if op = "DROP" then
        match s.stack with
        | _ :: rest => .ok { s with pc := s.pc + 1, stack := rest }
        | [] => .error .underflow
      else if op = "[]" then
        .ok { s with pc := s.pc + 1, stack := .list [] :: s.stack }
      else .error .badInstr
    | .lval nm =>
      let v := match nm with
               | some n => Value.name n
               | none => Value.null
      .ok { s with pc := s.pc + 1, stack := v :: s.stack }
    | .onFalseJump t =>
      match s.stack with
      | v :: rest =>
        if truthy v then .ok { s with pc := s.pc + 1, stack := rest }
        else .ok { s with pc := t, stack := rest }
      | [] => .error .underflow
    | .jump t => .ok { s with pc := t }

/-- `k` iterations of the dispatch loop (used to state sequencing
properties compositionally).  Written with a bare `Nat.rec` so that
concrete runs reduce cheaply inside the kernel. -/
def stepN (sq : Q → Q) (tape : List Instr) : Nat → VMState → Except Fault VMState :=
  fun k =>
    Nat.rec (motive := fun _ => VMState → Except Fault VMState)
      (fun s => .ok s)
      (fun _ ih s => (step sq tape s).bind ih)
      k

/-- Result of running `evaluate` to completion under a fuel bound. -/
inductive RunRes
  | done (s : VMState)
  | fault (f : Fault)
  | fuelOut

/-- `evaluate`'s `while pc < len(code)` loop, fuelled (again via a
bare `Nat.rec`). -/
def runFuel (sq : Q → Q) (tape : List Instr) : Nat → VMState → RunRes :=
  fun fuel =>
    Nat.rec (motive := fun _ => VMState → RunRes)
      (fun s => if s.pc < tape.length then .fuelOut else .done s)
      (fun _ ih s =>
        if s.pc < tape.length then
          match step sq tape s with
          | .error e => .fault e
          | .ok s2 => ih s2
        else .done s)
      fuel

/-!
## The lexer

`Lexer` keeps the remaining text, the file name, and a 1-based
(row, column) position of the character about to be consumed.  A
`SyntaxError` is raised at the lexer's current position; its stored
message is the rendered `filename:row:col:message` string, modelled
here as the structured fields plus `SynFault.render`.
-/

/-- The structured content of the source's `SyntaxError`. -/
structure SynFault where
  filename : String
  row : Nat
  col : Nat
  msg : String
deriving DecidableEq

/-- `SyntaxError.__init__`'s formatted message. -/
def SynFault.render (f : SynFault) : String :=
  f.filename ++ ":" ++ toString f.row ++ ":" ++ toString f.col ++ ":" ++ f.msg

/-- A token: an `ID` object, a `Number` object (int or float by the
presence of a decimal point), or a raw string (keyword, operator or
the `"EOF"` marker). -/
inductive Tok
  | id (nm : String)
  | num (isFloat : Bool) (val : Q)
  | str (s : String)
deriving DecidableEq

/-- A one-character string made of the apostrophe, used by the
`repr`-style messages below. -/
def quoteCh : String := String.mk ['\x27']

/-- Python `str(token)` as interpolated into `expects`' message:
a raw-string token prints as itself, an `ID` prints via its `repr`,
and a `Number` token raises `AttributeError` (its `__repr__` reads the
nonexistent `self.name` field), modelled as `none`. -/
def Tok.strDisplay : Tok → Option String
  | .str s => some s
  | .id nm => some ("ID(" ++ quoteCh ++ nm ++ quoteCh ++ ")")
  | .num _ _ => none

/-- Python `repr(token)` as used by the parser's `error` calls: a raw
string is quoted, an `ID` prints as `ID('name')`, and a `Number` token
again crashes. -/
def Tok.reprDisplay : Tok → Option String
  | .str s => some (quoteCh ++ s ++ quoteCh)
  | .id nm => some ("ID(" ++ quoteCh ++ nm ++ quoteCh ++ ")")
  | .num _ _ => none

/-- `Lexer.OPS`. -/
def OPS : List String := ["+", "-", "*", "/", "(", ")", "=", ";", ",", "<", ">"]

/-- `Lexer.OPS2`. -/
def OPS2 : List String := ["<=", ">=", "==", "!="]

/-- `Lexer.KEYWORDS`. -/
def KEYWORDS : List String :=
  ["NONE", "TRUE", "FALSE", "if", "then", "else", "end", "while", "do"]

/-- Remaining text plus the lexer's position bookkeeping. -/
structure LexState where
  filename : String
  text : List Char
  row : Nat
  col : Nat

/-- The whitespace-skipping loop at the top of `next_token`; `__nextch`
resets the column on a newline and otherwise advances it.  (Lean's
`Char.isWhitespace` covers space, tab, CR and LF; Python's `isspace`
additionally accepts the rare `\x0b`/`\x0c`, which no claim uses.) -/
def skipWS : List Char → Nat → Nat → List Char × Nat × Nat
  | [], r, c => ([], r, c)
  | ch :: rest, r, c =>
    if ch.isWhitespace then
      if ch = '\n' then skipWS rest (r + 1) 1 else skipWS rest r (c + 1)
    else (ch :: rest, r, c)

/-- A scanning loop: take the longest prefix satisfying `p`, advancing
the column once per consumed character (such prefixes never contain a
newline). -/
def takeCol (p : Char → Bool) : List Char → Nat → List Char × List Char × Nat
  | [], c => ([], [], c)
  | ch :: rest, c =>
    if p ch then
      let r := takeCol p rest (c + 1)
      (ch :: r.1, r.2.1, r.2.2)
    else ([], ch :: rest, c)

/-- Numeric value of a digit string. -/
def digitsVal (ds : List Char) : Nat :=
  ds.foldl (fun acc ch => 10 * acc + (ch.toNat - 48)) 0

/-- `Lexer.__number`: digits, then an optional single decimal point
followed by more digits.  A decimal point makes the token a float
(modelled as an exact rational where CPython parses to the nearest
double). -/
def lexNumber (ls : LexState) : Tok × LexState :=
  let t1 := takeCol Char.isDigit ls.text ls.col
  match t1.2.1 with
  | '.' :: rest2 =>
    let t2 := takeCol Char.isDigit rest2 (t1.2.2 + 1)
    let ip : Int := digitsVal t1.1
    let fp : Int := digitsVal t2.1
    let den : Int := 10 ^ t2.1.length
    (.num true ⟨ip * den + fp, den⟩, ⟨ls.filename, t2.2.1, ls.row, t2.2.2⟩)
  | other => (.num false (qOfInt (digitsVal t1.1)), ⟨ls.filename, other, ls.row, t1.2.2⟩)

/-- `Lexer.__variable`: an alphanumeric run, classified as keyword or
identifier. -/
def lexVariable (ls : LexState) : Tok × LexState :=
  let t := takeCol Char.isAlphanum ls.text ls.col
  let nm := String.mk t.1
  let tok := if nm ∈ KEYWORDS then Tok.str nm else Tok.id nm
  (tok, ⟨ls.filename, t.2.1, ls.row, t.2.2⟩)

/-- `Lexer.next_token`: skip whitespace, then dispatch in the source's
priority order — alphabetic, digit, two-character operator,
one-character operator, end of input, lexical fault.  The fault's
position is that of the offending character, and its message quotes up
to three characters of the remaining text. -/
def nextTok (ls : LexState) : Except SynFault (Tok × LexState) :=
  let sk := skipWS ls.text ls.row ls.col
  let ls1 : LexState := ⟨ls.filename, sk.1, sk.2.1, sk.2.2⟩
  match ls1.text with
  | [] => .ok (.str "EOF", ls1)
  | c1 :: rest1 =>
    if c1.isAlpha then .ok (lexVariable ls1)
    else if c1.isDigit then .ok (lexNumber ls1)
    else
      let two : String := String.mk (ls1.text.take 2)
      if two ∈ OPS2 then
        .ok (.str two, ⟨ls1.filename, ls1.text.drop 2, ls1.row, ls1.col + 2⟩)
      else if String.mk [c1] ∈ OPS then
        .ok (.str (String.mk [c1]), ⟨ls1.filename, rest1, ls1.row, ls1.col + 1⟩)
      else
        .error ⟨ls1.filename, ls1.row, ls1.col,
                "Bad string " ++ quoteCh ++ String.mk (ls1.text.take 3) ++ "..." ++ quoteCh⟩

/-!
## The parser / compiler

Each `parse_*` function consumes tokens and returns the grown tape;
the Python functions mutate a shared `code` list and the lexer, which
is modelled by threading both through `Except`.  Back-patching a jump
is `List.set` at the recorded index.  The recursion is fuelled; every
recursive call decrements the fuel, and running out is the distinct
outcome `PError.noFuel` (claims about compiled tapes are conditioned
on successful parses, so no fuel-adequacy assumption is ever used).

`PError.crash` models the `AttributeError` raised when a parse error
tries to interpolate a `Number` token into its message
(`Number.__repr__` reads a field that does not exist).
-/

/-- Outcome of a failed parse. -/
inductive PError
  | fault (f : SynFault)
  | crash
  | noFuel
deriving DecidableEq

/-- Parser view of the lexer: the current token plus the lexer state
(`Lexer.token` and the rest of the `Lexer` object). -/
structure PState where
  tok : Tok
  ls : LexState

/-- `Lexer.next_token` from the parser's side. -/
def pAdvance (st : PState) : Except PError PState :=
  match nextTok st.ls with
  | .ok (t, ls2) => .ok ⟨t, ls2⟩
  | .error f => .error (.fault f)

/-- `Lexer.__init__`: records the text and lexes the first token. -/
def initLexer (filename src : String) : Except PError PState :=
  match nextTok ⟨filename, src.data, 1, 1⟩ with
  | .ok (t, ls2) => .ok ⟨t, ls2⟩
  | .error f => .error (.fault f)

/-- A `SyntaxError` at the lexer's current position (`Lexer.error`). -/
def mkErr (st : PState) (m : String) : PError :=
  .fault ⟨st.ls.filename, st.ls.row, st.ls.col, m⟩

/-- `Lexer.expects(token)`: every call site passes a plain string.  On
mismatch the error message interpolates `str` of both tokens; with a
`Number` current token that interpolation crashes. -/
def expects (expected : String) (st : PState) : Except PError PState :=
  if st.tok = .str expected then pAdvance st
  else
    match st.tok.strDisplay with
    | some d => .error (mkErr st ("Expected " ++ expected ++ ", but got " ++ d))
    | none => .error .crash

/-- `RELOP`. -/
def RELOP : List String := ["<", "<=", ">", ">=", "==", "!="]

/-- `lexer.token in RELOP` (only raw-string tokens can match). -/
def relopOf : Tok → Option String
  | .str s => if s ∈ RELOP then some s else none
  | _ => none

/-- `lexer.token in ['+', '-']`. -/
def signOf : Tok → Option String
  | .str s => if s = "+" ∨ s = "-" then some s else none
  | _ => none

/-- `lexer.token in ['*', '/']`. -/
def mulOf : Tok → Option String
  | .str s => if s = "*" ∨ s = "/" then some s else none
  | _ => none

/-- `STATKEYWORD`. -/
def STATKEYWORD : List String := ["if", "while"]

/-- `VALKEYWORD[token]` when the token is one of its keys. -/
def valkwVal : Tok → Option Value
  | .str "TRUE" => some (.bool true)
  | .str "FALSE" => some (.bool false)
  | .str "NONE" => some .null
  | _ => none

/-- `start_primary`. -/
def startPrimary (t : Tok) : Bool :=
  match t with
  | .id _ => true
  | .str s => s ∈ ["TRUE", "FALSE", "NONE"] || s ∈ STATKEYWORD
  | _ => false

/-!
The fifteen parse functions of the source are mutually recursive; the
embedding fuels them.  To keep kernel reduction of concrete parses
cheap, the mutual knot is tied explicitly: `ParseFns` packages one
fuel level's functions, `parseStepFns` builds level `n+1` from level
`n` (each body is the direct transcription of its Python function,
with recursive calls going through the previous level), and `parseAt`
iterates with `Nat.rec`.  The familiar names `parse_exprlist`, ...,
`parse_args` are the projections.
-/

/-- The parse functions available at one fuel level. -/
structure ParseFns where
  exprlist : List Instr → PState → Except PError (List Instr × PState)
  exprlistLoop : List Instr → PState → Except PError (List Instr × PState)
  expr : List Instr → PState → Except PError (List Instr × PState)
  arexpr : List Instr → PState → Except PError (List Instr × PState)
  arexprLoop : List Instr → PState → Except PError (List Instr × PState)
  term : List Instr → PState → Except PError (List Instr × PState)
  termLoop : List Instr → PState → Except PError (List Instr × PState)
  factor : List Instr → PState → Except PError (List Instr × PState)
  factorArgsLoop : List Instr → PState → Except PError (List Instr × PState)
  primary : List Instr → PState → Except PError (List Instr × PState)
  statement : List Instr → PState → Except PError (List Instr × PState)
  ifStmt : List Instr → PState → Except PError (List Instr × PState)
  whileStmt : List Instr → PState → Except PError (List Instr × PState)
  args : List Instr → PState → Except PError (List Instr × PState)
  argsLoop : List Instr → PState → Except PError (List Instr × PState)

/-- Fuel exhausted: every entry point reports `noFuel`. -/
def parseOut : ParseFns :=
  ⟨fun _ _ => .error .noFuel, fun _ _ => .error .noFuel, fun _ _ => .error .noFuel,
   fun _ _ => .error .noFuel, fun _ _ => .error .noFuel, fun _ _ => .error .noFuel,
   fun _ _ => .error .noFuel, fun _ _ => .error .noFuel, fun _ _ => .error .noFuel,
   fun _ _ => .error .noFuel, fun _ _ => .error .noFuel, fun _ _ => .error .noFuel,
   fun _ _ => .error .noFuel, fun _ _ => .error .noFuel, fun _ _ => .error .noFuel⟩

/-- One fuel level of every parse function.  Each field is the direct
transcription of the corresponding Python function; `p` holds the
functions used for recursive calls. -/
def parseStepFns (p : ParseFns) : ParseFns where
  exprlist := fun code st => do
    let r ← p.expr code st
    p.exprlistLoop r.1 r.2
  exprlistLoop := fun code st =>
    if st.tok = .str ";" then do
      let s1 ← pAdvance st
      let r ← p.expr (code ++ [.str "DROP"]) s1
      p.exprlistLoop r.1 r.2
    else .ok (code, st)
  expr := fun code st => do
    let r ← p.arexpr code st
    match relopOf r.2.tok with
    | some op => do
      let s1 ← pAdvance r.2
      let r2 ← p.arexpr r.1 s1
      .ok (r2.1 ++ [.str op], r2.2)
    | none => .ok (r.1, r.2)
  arexpr := fun code st =>
    match signOf st.tok with
    | some sg => do
      let s1 ← pAdvance st
      let r ← p.term code s1
      p.arexprLoop (if sg = "-" then r.1 ++ [.str "NEG"] else r.1) r.2
    | none => do
      let r ← p.term code st
      p.arexprLoop r.1 r.2
  arexprLoop := fun code st =>
    match signOf st.tok with
    | some sg => do
      let s1 ← pAdvance st
      let r ← p.term code s1
      p.arexprLoop (r.1 ++ [.str sg]) r.2
    | none => .ok (code, st)
  term := fun code st => do
    let r ← p.factor code st
    p.termLoop r.1 r.2
  termLoop := fun code st =>
    match mulOf st.tok with
    | some sg => do
      let s1 ← pAdvance st
      let r ← p.factor code s1
      p.termLoop (r.1 ++ [.str sg]) r.2
    | none => .ok (code, st)
  factor := fun code st =>
    if startPrimary st.tok then do
      let r ← p.primary code st
      p.factorArgsLoop r.1 r.2
    else
      match st.tok with
      | .num f q => do
        let s1 ← pAdvance st
        .ok (code ++ [.rval (.num f q)], s1)
      | _ =>
        if st.tok = .str "(" then do
          let s1 ← pAdvance st
          let r ← p.exprlist code s1
          let s2 ← expects ")" r.2
          .ok (r.1, s2)
        else
          match st.tok.reprDisplay with
          | some d =>
            .error (mkErr st ("Expected number, varname or " ++ quoteCh ++ "("
              ++ quoteCh ++ ", but got " ++ d))
          | none => .error .crash
  factorArgsLoop := fun code st =>
    if st.tok = .str "(" then do
      let r ← p.args code st
      p.factorArgsLoop r.1 r.2
    else .ok (code, st)
  primary := fun code st =>
    match st.tok with
    | .id nm => do
      let s1 ← pAdvance st
      if s1.tok = .str "=" then do
        let s2 ← pAdvance s1
        let r ← p.expr (code ++ [.lval (some nm)]) s2
        .ok (r.1 ++ [.str "="], r.2)
      else .ok (code ++ [.idload nm], s1)
    | _ =>
      match valkwVal st.tok with
      | some v => do
        let s1 ← pAdvance st
        .ok (code ++ [.rval v], s1)
      | none =>
        if st.tok = .str "if" ∨ st.tok = .str "while" then
          p.statement code st
        else
          match st.tok.reprDisplay with
          | some d => .error (mkErr st ("Expected primary, but got " ++ d))
          | none => .error .crash
  statement := fun code st =>
    if st.tok = .str "if" then p.ifStmt code st
    else if st.tok = .str "while" then p.whileStmt code st
    else
      match st.tok.reprDisplay with
      | some d => .error (mkErr st ("expected statement, but got " ++ d))
      | none => .error .crash
  ifStmt := fun code st => do
    let s1 ← expects "if" st
    let r1 ← p.expr code s1
    let s2 ← expects "then" r1.2
    let jfPos := r1.1.length
    let r2 ← p.exprlist (r1.1 ++ [Instr.onFalseJump 0]) s2
    let jmpPos := r2.1.length
    let c3 := (r2.1 ++ [Instr.jump 0]).set jfPos (Instr.onFalseJump (r2.1.length + 1))
    if r2.2.tok = .str "else" then do
      let s3 ← pAdvance r2.2
      let r3 ← p.exprlist c3 s3
      let s4 ← expects "end" r3.2
      .ok (r3.1.set jmpPos (Instr.jump r3.1.length), s4)
    else do
      let c4 := c3 ++ [Instr.lval none]
      let s4 ← expects "end" r2.2
      .ok (c4.set jmpPos (Instr.jump c4.length), s4)
  whileStmt := fun code st => do
    let s1 ← expects "while" st
    let c1 := code ++ [Instr.lval none]
    let startLoop := c1.length
    let r1 ← p.expr c1 s1
    let s2 ← expects "do" r1.2
    let exitPos := r1.1.length
    let r2 ← p.exprlist (r1.1 ++ [Instr.onFalseJump 0, Instr.str "DROP"]) s2
    let c3 := r2.1 ++ [Instr.jump startLoop]
    let s3 ← expects "end" r2.2
    .ok (c3.set exitPos (Instr.onFalseJump c3.length), s3)
  args := fun code st => do
    let s1 ← expects "(" st
    let c1 := code ++ [Instr.str "[]"]
    if s1.tok = .str ")" then do
      let s2 ← expects ")" s1
      .ok (c1 ++ [.str "CALL"], s2)
    else do
      let r1 ← p.expr c1 s1
      let r2 ← p.argsLoop (r1.1 ++ [.str "APPEND"]) r1.2
      let s2 ← expects ")" r2.2
      .ok (r2.1 ++ [.str "CALL"], s2)
  argsLoop := fun code st =>
    if st.tok = .str "," then do
      let s1 ← pAdvance st
      let r ← p.expr code s1
      p.argsLoop (r.1 ++ [.str "APPEND"]) r.2
    else .ok (code, st)

/-- The parse functions at fuel `n`. -/
def parseAt : Nat → ParseFns :=
  fun n => Nat.rec parseOut (fun _ ih => parseStepFns ih) n

/-- `parse_exprlist`: `expr { ';' expr }`, a `DROP` appended before
each later expression is compiled. -/
def parse_exprlist (fuel : Nat) : List Instr → PState → Except PError (List Instr × PState) :=
  (parseAt fuel).exprlist

/-- The `while lexer.token == ';'` loop of `parse_exprlist`. -/
def exprlistLoop (fuel : Nat) : List Instr → PState → Except PError (List Instr × PState) :=
  (parseAt fuel).exprlistLoop

/-- `parse_expr`: `arexpr [RELOP arexpr]`. -/
def parse_expr (fuel : Nat) : List Instr → PState → Except PError (List Instr × PState) :=
  (parseAt fuel).expr

/-- `parse_arexpr`: an optional leading sign applies to the first term
only — `NEG` is appended right after the first term's code exactly
when the sign was `-`. -/
def parse_arexpr (fuel : Nat) : List Instr → PState → Except PError (List Instr × PState) :=
  (parseAt fuel).arexpr

/-- The `while lexer.token in ['+', '-']` loop of `parse_arexpr`. -/
def arexprLoop (fuel : Nat) : List Instr → PState → Except PError (List Instr × PState) :=
  (parseAt fuel).arexprLoop

/-- `parse_term`: `factor { ('*' | '/') factor }`. -/
def parse_term (fuel : Nat) : List Instr → PState → Except PError (List Instr × PState) :=
  (parseAt fuel).term

/-- The `while lexer.token in ['*', '/']` loop of `parse_term`. -/
def termLoop (fuel : Nat) : List Instr → PState → Except PError (List Instr × PState) :=
  (parseAt fuel).termLoop

/-- `parse_factor`: a primary with call-argument lists, a number
literal, or a parenthesised exprlist. -/
def parse_factor (fuel : Nat) : List Instr → PState → Except PError (List Instr × PState) :=
  (parseAt fuel).factor

/-- The `while lexer.token == '('` loop of `parse_factor`. -/
def factorArgsLoop (fuel : Nat) : List Instr → PState → Except PError (List Instr × PState) :=
  (parseAt fuel).factorArgsLoop

/-- `parse_primary`: assignment or load of an identifier, a value
keyword, or a statement. -/
def parse_primary (fuel : Nat) : List Instr → PState → Except PError (List Instr × PState) :=
  (parseAt fuel).primary

/-- `parse_statement`. -/
def parse_statement (fuel : Nat) : List Instr → PState → Except PError (List Instr × PState) :=
  (parseAt fuel).statement

/-- `parse_if_statement`: condition, `OnFalseJump` patched to just
past the then-branch's `Jump`, then-branch, `Jump` patched to the end
of the construct, and either the else-branch or a pushed `None`. -/
def parse_if_statement (fuel : Nat) : List Instr → PState → Except PError (List Instr × PState) :=
  (parseAt fuel).ifStmt

/-- `parse_while_statement`: push `None`, loop head, condition,
`OnFalseJump` patched to the loop exit, `DROP`, body, `Jump` back to
the head. -/
def parse_while_statement (fuel : Nat) : List Instr → PState → Except PError (List Instr × PState) :=
  (parseAt fuel).whileStmt

/-- `parse_args`: `'(' [expr {',' expr}] ')'` — push an empty list,
append each argument, then `CALL`. -/
def parse_args (fuel : Nat) : List Instr → PState → Except PError (List Instr × PState) :=
  (parseAt fuel).args

/-- The `while lexer.token == ','` loop of `parse_args`. -/
def argsLoop (fuel : Nat) : List Instr → PState → Except PError (List Instr × PState) :=
  (parseAt fuel).argsLoop

/-- `parse_program`: an exprlist followed by end of input. -/
def parse_program (fuel : Nat) (code : List Instr) (st : PState) :
    Except PError (List Instr × PState) := do
  let r ← parse_exprlist fuel code st
  let s1 ← expects "EOF" r.2
  .ok (r.1, s1)

/-- The compilation half of `main`: build a lexer over the source text
and run `parse_program` on an empty tape. -/
def compileWith (fuel : Nat) (filename src : String) : Except PError (List Instr) := do
  let st ← initLexer filename src
  let r ← parse_program fuel [] st
  .ok r.1

/-- `compileWith` at a fuel bound generous for the concrete programs
considered here. -/
def compile (filename src : String) : Except PError (List Instr) :=
  compileWith (src.length + 64) filename src

/-- The exact rational value of the IEEE double `math.pi`. -/
def piQ : Q := ⟨884279719003555, 281474976710656⟩

/-- The exact rational value of the IEEE double `math.e`. -/
def eQ : Q := ⟨6121026514868073, 2251799813685248⟩

/-- The environment `evaluate` seeds before execution. -/
def builtinEnv : Value → Option Value := fun k =>
  if pyEq k (.name "pi") then some (.num true piQ)
  else if pyEq k (.name "e") then some (.num true eQ)
  else if pyEq k (.name "sin") then some (.callable .sin)
  else if pyEq k (.name "print") then some (.callable .print)
  else none

/-- `evaluate`'s initial state over a given environment: program
counter 0, empty stack, nothing printed. -/
def initState (env : Value → Option Value) : VMState :=
  ⟨0, [], env, []⟩

/-- The final operand stack of a finished run (`None` when the run
faulted or ran out of fuel). -/
def finalStack : RunRes → Option (List Value)
  | .done s => some s.stack
  | _ => none

/-- The fault of a failed run, if any. -/
def runFault : RunRes → Option Fault
  | .fault f => some f
  | _ => none

/-- CLAIM-SIDE definition, following the spec's words rather than the
source (used only to compare against the source's reported fault
positions): the 1-based (row, column) of the character at index `i` of
the source text, counting newlines as row breaks. -/
def specPosOfIndex (src : String) (i : Nat) : Nat × Nat :=
  (src.data.take i).foldl
    (fun rc ch => if ch = '\n' then (rc.1 + 1, 1) else (rc.1, rc.2 + 1)) (1, 1)

/-!
## Depth annotations

The machinery for C1.  A depth annotation `L` assigns, to each
position of a code fragment sitting at absolute tape positions
`[b, b + Δ.length]`, the operand-stack depth the VM has when its
program counter is there.  `instrOKL` is the per-instruction local
consistency condition: the depth before supplies at least as many
operands as the instruction pops, the depth after is the depth before
plus the instruction's net stack effect, and every jump targets an
annotated position of equal depth.  A raw-string instruction outside
the interpreter's dispatch table satisfies no condition at all, so an
annotated tape can never reach the `Bad instruction` dead end.
-/

/-- Local depth-consistency of one instruction at position `b + i`,
with `L` annotating positions `b`, `b + 1`, ... (index `k` of `L` is
position `b + k`). -/
def instrOKL (b : Nat) (L : List Nat) (i : Nat) : Instr → Prop
  | .rval _ => ∃ d, L.get? i = some d ∧ L.get? (i + 1) = some (d + 1)
  | .idload _ => ∃ d, L.get? i = some d ∧ L.get? (i + 1) = some (d + 1)
  | .lval _ => ∃ d, L.get? i = some d ∧ L.get? (i + 1) = some (d + 1)
  | .onFalseJump t => ∃ d, L.get? i = some (d + 1) ∧ L.get? (i + 1) = some d ∧
      b ≤ t ∧ L.get? (t - b) = some d
  | .jump t => ∃ d, L.get? i = some d ∧ b ≤ t ∧ L.get? (t - b) = some d
  | .str s =>
    if s ∈ binKeys then ∃ d, L.get? i = some (d + 2) ∧ L.get? (i + 1) = some (d + 1)
    else if s = "NEG" then ∃ d, L.get? i = some (d + 1) ∧ L.get? (i + 1) = some (d + 1)
    else if s = "=" then ∃ d, L.get? i = some (d + 2) ∧ L.get? (i + 1) = some (d + 1)
    else if s = "DROP" then ∃ d, L.get? i = some (d + 1) ∧ L.get? (i + 1) = some d
    else if s = "[]" then ∃ d, L.get? i = some d ∧ L.get? (i + 1) = some (d + 1)
    else False

/-- A consistently annotated code fragment at base position `b`, with
entry depth `dIn` and exit depth `dOut`. -/
def Chunk (b : Nat) (Δ : List Instr) (L : List Nat) (dIn dOut : Nat) : Prop :=
  L.length = Δ.length + 1 ∧ L.get? 0 = some dIn ∧ L.get? Δ.length = some dOut ∧
  ∀ i inst, Δ.get? i = some inst → instrOKL b L i inst

/-- A value-producing fragment: from every entry depth it admits an
annotation with net stack effect `+1`. -/
def FragV (b : Nat) (Δ : List Instr) : Prop :=
  ∀ e : Nat, ∃ L, Chunk b Δ L e (e + 1)

/-- A loop-body-style fragment: from every positive entry depth it
admits an annotation with net stack effect `0`.  (Positivity is what
lets a binary operator or a `Discard` inside consume the value
accumulated before the loop.) -/
def FragL (b : Nat) (Δ : List Instr) : Prop :=
  ∀ e : Nat, 1 ≤ e → ∃ L, Chunk b Δ L e e

/-- The fragment property of a value-producing parse function: on
success it appends a value-producing fragment to the tape. -/
def PV (p : List Instr → PState → Except PError (List Instr × PState)) : Prop :=
  ∀ code st c st2, p code st = .ok (c, st2) →
    ∃ Δ, c = code ++ Δ ∧ FragV code.length Δ

/-- The fragment property of a loop-style parse function. -/
def PL (p : List Instr → PState → Except PError (List Instr × PState)) : Prop :=
  ∀ code st c st2, p code st = .ok (c, st2) →
    ∃ Δ, c = code ++ Δ ∧ FragL code.length Δ

/-!
## General-purpose lemmas
-/

theorem set_len_append {α : Type} (l : List α) (x y : α) (r : List α) :
    (l ++ x :: r).set l.length y = l ++ y :: r := by
  induction l with
  | nil => rfl
  | cons a as ih =>
    simp only [List.cons_append, List.length_cons, List.set_cons_succ]
    exact congrArg (a :: ·) ih

theorem get_at_len {α : Type} (l : List α) (x : α) (r : List α) :
    (l ++ x :: r).get? l.length = some x := by
  induction l with
  | nil => rfl
  | cons a as ih => simpa using ih

theorem ebind_ok {ε α β : Type} (a : α) (f : α → Except ε β) :
    ((Except.ok a : Except ε α) >>= f) = f a := rfl

theorem parseAt_succ (n : Nat) : parseAt (n + 1) = parseStepFns (parseAt n) := rfl

theorem stepN_zero (sq : Q → Q) (tape : List Instr) (s : VMState) :
    stepN sq tape 0 s = .ok s := rfl

theorem stepN_succ (sq : Q → Q) (tape : List Instr) (k : Nat) (s : VMState) :
    stepN sq tape (k + 1) s = (step sq tape s).bind (stepN sq tape k) := rfl

theorem exbind_ok {α β : Type} (a : α) (g : α → Except Fault β) :
    (Except.ok a).bind g = g a := rfl

theorem stepN_add (sq : Q → Q) (tape : List Instr) (m n : Nat) (s : VMState) :
    stepN sq tape (m + n) s = (stepN sq tape m s).bind (stepN sq tape n) := by
  induction m generalizing s with
  | zero =>
    rw [Nat.zero_add]
    rfl
  | succ k ih =>
    have hm : k + 1 + n = (k + n) + 1 := by omega
    rw [hm, stepN_succ, stepN_succ]
    cases h : step sq tape s with
    | error e => rfl
    | ok s2 =>
      show stepN sq tape (k + n) s2 = (stepN sq tape k s2).bind (stepN sq tape n)
      exact ih s2

theorem stepN_one_bind (sq : Q → Q) (tape : List Instr) (m : Nat) (s : VMState) :
    stepN sq tape (1 + m) s = (step sq tape s).bind (stepN sq tape m) := by
  rw [Nat.add_comm 1 m]
  exact stepN_succ sq tape m s

/-!
## Compilation shapes of the control-flow constructs
-/

/-- Sequencing: executing the compiled `a; b; c` region runs the three
fragments in order, with a `DROP` step discarding the value each of
the first two left on the stack; the region ends with only the third
value pushed and the side effects (environment, output) accumulated in
order. -/
theorem exprlist_seq_sem (sq : Q → Q) (tape P A B C R : List Instr) (st0 : List Value)
    (env0 env1 env2 env3 : Value → Option Value)
    (out0 out1 out2 out3 : List (List Value)) (va vb vc : Value) (kA kB kC : Nat)
    (htape : tape = P ++ A ++ [.str "DROP"] ++ B ++ [.str "DROP"] ++ C ++ R)
    (hA : stepN sq tape kA ⟨P.length, st0, env0, out0⟩ =
      .ok ⟨P.length + A.length, va :: st0, env1, out1⟩)
    (hB : stepN sq tape kB ⟨P.length + A.length + 1, st0, env1, out1⟩ =
      .ok ⟨P.length + A.length + 1 + B.length, vb :: st0, env2, out2⟩)
    (hC : stepN sq tape kC ⟨P.length + A.length + 1 + B.length + 1, st0, env2, out2⟩ =
      .ok ⟨P.length + A.length + 1 + B.length + 1 + C.length, vc :: st0, env3, out3⟩) :
    stepN sq tape (kA + (1 + (kB + (1 + kC)))) ⟨P.length, st0, env0, out0⟩ =
      .ok ⟨P.length + A.length + 1 + B.length + 1 + C.length, vc :: st0, env3, out3⟩ := by
  have hget1 : tape.get? (P.length + A.length) = some (Instr.str "DROP") := by
    have e : tape = (P ++ A) ++ (Instr.str "DROP" :: (B ++ [Instr.str "DROP"] ++ C ++ R)) := by
      rw [htape]; simp
    rw [e, ← List.length_append P A]
    exact get_at_len _ _ _
  have hget2 : tape.get? (P.length + A.length + 1 + B.length) = some (Instr.str "DROP") := by
    have e : tape = ((P ++ A) ++ Instr.str "DROP" :: B) ++ (Instr.str "DROP" :: (C ++ R)) := by
      rw [htape]; simp
    have eidx : P.length + A.length + 1 + B.length =
        ((P ++ A) ++ Instr.str "DROP" :: B).length := by
      simp only [List.length_append, List.length_cons]
      omega
    rw [e, eidx]
    exact get_at_len _ _ _
  have hdropKeys : ¬ ("DROP" ∈ binKeys) := by decide
  rw [stepN_add, hA, exbind_ok, stepN_one_bind]
  have hstep1 : step sq tape ⟨P.length + A.length, va :: st0, env1, out1⟩ =
      .ok ⟨P.length + A.length + 1, st0, env1, out1⟩ := by
    simp only [step, hget1]
    simp [hdropKeys]
  rw [hstep1, exbind_ok, stepN_add, hB, exbind_ok, stepN_one_bind]
  have hstep2 : step sq tape ⟨P.length + A.length + 1 + B.length, vb :: st0, env2, out2⟩ =
      .ok ⟨P.length + A.length + 1 + B.length + 1, st0, env2, out2⟩ := by
    simp only [step, hget2]
    simp [hdropKeys]
  rw [hstep2, exbind_ok, hC]

/-- What `parse_exprlist` emits for `a; b; c`: the three expression
fragments with a `DROP` between consecutive ones. -/
theorem exprlist_seq_shape (f : Nat) (code : List Instr) (st st1 st2 st3 st4 st5 : PState)
    (A B C : List Instr)
    (h1 : parse_expr (f + 3) code st = .ok (code ++ A, st1))
    (h2 : st1.tok = .str ";")
    (h3 : pAdvance st1 = .ok st2)
    (h4 : parse_expr (f + 2) (code ++ A ++ [.str "DROP"]) st2 =
      .ok (code ++ A ++ [.str "DROP"] ++ B, st3))
    (h5 : st3.tok = .str ";")
    (h6 : pAdvance st3 = .ok st4)
    (h7 : parse_expr (f + 1) (code ++ A ++ [.str "DROP"] ++ B ++ [.str "DROP"]) st4 =
      .ok (code ++ A ++ [.str "DROP"] ++ B ++ [.str "DROP"] ++ C, st5))
    (h8 : st5.tok ≠ .str ";") :
    parse_exprlist (f + 4) code st =
      .ok (code ++ A ++ [.str "DROP"] ++ B ++ [.str "DROP"] ++ C, st5) := by
  show (parseStepFns (parseAt (f + 3))).exprlist code st = _
  simp only [parseStepFns]
  have he1 : (parseAt (f + 3)).expr = parse_expr (f + 3) := rfl
  rw [he1, h1, ebind_ok]
  show (parseStepFns (parseAt (f + 2))).exprlistLoop (code ++ A) st1 = _
  simp only [parseStepFns]
  rw [if_pos h2, h3, ebind_ok]
  have he2 : (parseAt (f + 2)).expr = parse_expr (f + 2) := rfl
  rw [he2, h4, ebind_ok]
  show (parseStepFns (parseAt (f + 1))).exprlistLoop (code ++ A ++ [.str "DROP"] ++ B) st3 = _
  simp only [parseStepFns]
  rw [if_pos h5, h6, ebind_ok]
  have he3 : (parseAt (f + 1)).expr = parse_expr (f + 1) := rfl
  rw [he3, h7, ebind_ok]
  show (parseStepFns (parseAt f)).exprlistLoop
    (code ++ A ++ [.str "DROP"] ++ B ++ [.str "DROP"] ++ C) st5 = _
  simp only [parseStepFns]
  rw [if_neg h8]

/-- What `parse_if_statement` emits when there is no `else` branch,
given the condition fragment `C` and then-branch fragment `T`: the
`OnFalseJump` is patched to the pushed `None`, the `Jump` to the end
of the construct. -/
theorem if_shape_no_else (fuel : Nat) (code : List Instr) (st s1 st2 s2 st3 s4 : PState)
    (C T : List Instr)
    (h1 : expects "if" st = .ok s1)
    (h2 : parse_expr fuel code s1 = .ok (code ++ C, st2))
    (h3 : expects "then" st2 = .ok s2)
    (h4 : parse_exprlist fuel (code ++ C ++ [.onFalseJump 0]) s2 =
      .ok (code ++ C ++ [.onFalseJump 0] ++ T, st3))
    (h5 : st3.tok ≠ .str "else")
    (h6 : expects "end" st3 = .ok s4) :
    parse_if_statement (fuel + 1) code st =
      .ok (code ++ C ++ [.onFalseJump (code.length + C.length + T.length + 2)] ++ T ++
           [.jump (code.length + C.length + T.length + 3), .lval none], s4) := by
  show (parseStepFns (parseAt fuel)).ifStmt code st = _
  simp only [parseStepFns]
  have hexpr : (parseAt fuel).expr = parse_expr fuel := rfl
  have hexprlist : (parseAt fuel).exprlist = parse_exprlist fuel := rfl
  rw [h1, ebind_ok, hexpr, h2, ebind_ok, h3, ebind_ok, hexprlist]
  simp only []
  rw [h4, ebind_ok]
  simp only []
  rw [if_neg h5, h6, ebind_ok]
  have hX : (code ++ C ++ [Instr.onFalseJump 0] ++ T).length + 1 =
      code.length + C.length + T.length + 2 := by
    simp only [List.length_append, List.length_cons, List.length_nil]
    omega
  rw [hX]
  have e1 : code ++ C ++ [Instr.onFalseJump 0] ++ T ++ [Instr.jump 0] =
      (code ++ C) ++ (Instr.onFalseJump 0 :: (T ++ [Instr.jump 0])) := by simp
  rw [e1, set_len_append]
  have e2 : ((code ++ C) ++ Instr.onFalseJump (code.length + C.length + T.length + 2) ::
        (T ++ [Instr.jump 0])) ++ [Instr.lval none] =
      ((code ++ C) ++ Instr.onFalseJump (code.length + C.length + T.length + 2) :: T) ++
        (Instr.jump 0 :: [Instr.lval none]) := by simp
  rw [e2]
  have e3 : (code ++ C ++ [Instr.onFalseJump 0] ++ T).length =
      ((code ++ C) ++ Instr.onFalseJump (code.length + C.length + T.length + 2) :: T).length := by
    simp
  rw [e3, set_len_append]
  have hY : (((code ++ C) ++ Instr.onFalseJump (code.length + C.length + T.length + 2) :: T) ++
      (Instr.jump 0 :: [Instr.lval none])).length = code.length + C.length + T.length + 3 := by
    simp only [List.length_append, List.length_cons, List.length_nil]
    omega
  rw [hY]
  simp

/-- What `parse_while_statement` emits, given the condition fragment
`C` and body fragment `B`: `None` is pushed first, the `OnFalseJump`
is patched to just past the construct, and the final `Jump` returns to
the loop head (the instruction after the pushed `None`). -/
theorem while_shape (fuel : Nat) (code : List Instr) (st s1 st2 s2 st3 s3 : PState)
    (C B : List Instr)
    (h1 : expects "while" st = .ok s1)
    (h2 : parse_expr fuel (code ++ [.lval none]) s1 = .ok (code ++ [.lval none] ++ C, st2))
    (h3 : expects "do" st2 = .ok s2)
    (h4 : parse_exprlist fuel (code ++ [.lval none] ++ C ++ [.onFalseJump 0, .str "DROP"]) s2 =
      .ok (code ++ [.lval none] ++ C ++ [.onFalseJump 0, .str "DROP"] ++ B, st3))
    (h5 : expects "end" st3 = .ok s3) :
    parse_while_statement (fuel + 1) code st =
      .ok (code ++ [.lval none] ++ C ++
           [.onFalseJump (code.length + C.length + B.length + 4), .str "DROP"] ++ B ++
           [.jump (code.length + 1)], s3) := by
  show (parseStepFns (parseAt fuel)).whileStmt code st = _
  simp only [parseStepFns]
  have hexpr : (parseAt fuel).expr = parse_expr fuel := rfl
  have hexprlist : (parseAt fuel).exprlist = parse_exprlist fuel := rfl
  rw [h1, ebind_ok, hexpr, h2, ebind_ok, h3, ebind_ok, hexprlist]
  simp only []
  rw [h4, ebind_ok]
  simp only []
  rw [h5, ebind_ok]
  have hX : (code ++ [Instr.lval none] ++ C ++ [Instr.onFalseJump 0, Instr.str "DROP"] ++ B ++
      [Instr.jump (code ++ [Instr.lval none]).length]).length =
      code.length + C.length + B.length + 4 := by
    simp only [List.length_append, List.length_cons, List.length_nil]
    omega
  rw [hX]
  have e1 : code ++ [Instr.lval none] ++ C ++ [Instr.onFalseJump 0, Instr.str "DROP"] ++ B ++
      [Instr.jump (code ++ [Instr.lval none]).length] =
      (code ++ [Instr.lval none] ++ C) ++ (Instr.onFalseJump 0 ::
        (Instr.str "DROP" :: (B ++ [Instr.jump (code.length + 1)]))) := by
    simp
  rw [e1, set_len_append]
  simp

/-- A failed `expects` on a mismatched token reports the lexer's
current position, which at that moment is just past the last character
of the unexpected token. -/
theorem expects_err_pos (exp : String) (st : PState) (f : SynFault)
    (hne : st.tok ≠ .str exp) (h : expects exp st = .error (.fault f)) :
    f.filename = st.ls.filename ∧ f.row = st.ls.row ∧ f.col = st.ls.col := by
  unfold expects at h
  rw [if_neg hne] at h
  cases hd : st.tok.strDisplay with
  | some d =>
    rw [hd] at h
    injection h with h1
    injection h1 with h2
    subst h2
    exact ⟨rfl, rfl, rfl⟩
  | none =>
    rw [hd] at h
    injection h with h1
    exact PError.noConfusion h1

/-- A lexical fault reports the position reached after skipping
whitespace — the position of the offending character itself. -/
theorem nextTok_err_pos (ls : LexState) (f : SynFault) (h : nextTok ls = .error f) :
    f.filename = ls.filename ∧
    ∃ rest : List Char, skipWS ls.text ls.row ls.col = (rest, f.row, f.col) := by
  unfold nextTok at h
  rcases hsk : skipWS ls.text ls.row ls.col with ⟨txt, r, c⟩
  rw [hsk] at h
  simp only at h
  cases txt with
  | nil => exact Except.noConfusion h
  | cons c1 rest =>
    simp only at h
    split_ifs at h
    injection h with h1
    subst h1
    exact ⟨rfl, c1 :: rest, rfl⟩

/-!
## The claims
-/

/-- C7, counterexample: parsing `1 x` fails on the unexpected token
`x`, whose first character sits at index 2 of the source, i.e. at
row 1, column 3; but the reported fault carries column 4 — the
position just past the token — so the reported position is not the
first character of the offending token. -/
theorem C7_counterexample :
    compile "test.txt" "1 x" = .error (.fault ⟨"test.txt", 1, 4,
      "Expected EOF, but got ID(" ++ quoteCh ++ "x" ++ quoteCh ++ ")"⟩) ∧
    specPosOfIndex "1 x" 2 = (1, 3) ∧
    ((1, 4) : Nat × Nat) ≠ (1, 3) := by
  refine ⟨rfl, rfl, by decide⟩

/-- C7, amended: every `SyntaxError` message renders as
`filename:row:col:message` with 1-based row and column; a lexical
fault points at the offending character (the position reached after
skipping whitespace), while a parse fault on an unexpected token
reports the lexer position just past that token — not the position of
its first character, as the concrete parse of `1 x` shows (reported
column 4; the token starts at column 3). -/
theorem C7_fault_positions :
    (∀ f : SynFault, f.render =
      f.filename ++ ":" ++ toString f.row ++ ":" ++ toString f.col ++ ":" ++ f.msg) ∧
    (∀ (exp : String) (st : PState) (f : SynFault), st.tok ≠ .str exp →
      expects exp st = .error (.fault f) →
      f.filename = st.ls.filename ∧ f.row = st.ls.row ∧ f.col = st.ls.col) ∧
    (∀ (st : PState) (m : String),
      mkErr st m = .fault ⟨st.ls.filename, st.ls.row, st.ls.col, m⟩) ∧
    (∀ (ls : LexState) (f : SynFault), nextTok ls = .error f →
      f.filename = ls.filename ∧
      ∃ rest : List Char, skipWS ls.text ls.row ls.col = (rest, f.row, f.col)) ∧
    compile "test.txt" "1 x" = .error (.fault ⟨"test.txt", 1, 4,
      "Expected EOF, but got ID(" ++ quoteCh ++ "x" ++ quoteCh ++ ")"⟩) ∧
    specPosOfIndex "1 x" 2 = (1, 3) := by
  exact ⟨fun f => rfl, expects_err_pos, fun st m => rfl, nextTok_err_pos, rfl, rfl⟩

/-- C7, witness: the mismatched-token rule applied to a concrete
failing `expects`. -/
theorem C7_fault_positions_witness :
    (⟨"t", 1, 4, "Expected EOF, but got ID(" ++ quoteCh ++ "x" ++ quoteCh ++ ")"⟩
      : SynFault).filename = "t" ∧
    (⟨"t", 1, 4, "Expected EOF, but got ID(" ++ quoteCh ++ "x" ++ quoteCh ++ ")"⟩
      : SynFault).row = 1 ∧
    (⟨"t", 1, 4, "Expected EOF, but got ID(" ++ quoteCh ++ "x" ++ quoteCh ++ ")"⟩
      : SynFault).col = 4 :=
  C7_fault_positions.2.1 "EOF" ⟨Tok.id "x", ⟨"t", [], 1, 4⟩⟩
    ⟨"t", 1, 4, "Expected EOF, but got ID(" ++ quoteCh ++ "x" ++ quoteCh ++ ")"⟩
    (by decide) rfl

/-- C2, counterexample: the claim says exactly Boolean false and the
null value are falsy and every number is truthy; but `OnFalseJump`
tests Python truthiness, so the number `0` takes the jump (the program
counter becomes the jump target `5`, not `0 + 1`) even though the
claim says it may not. -/
theorem C2_counterexample :
    step (fun x => x) [Instr.onFalseJump 5] ⟨0, [Value.num false ⟨0, 1⟩], builtinEnv, []⟩ =
      .ok ⟨5, [], builtinEnv, []⟩ ∧
    ¬(Value.num false ⟨0, 1⟩ = Value.bool false ∨ Value.num false ⟨0, 1⟩ = Value.null) := by
  refine ⟨rfl, ?_⟩
  rintro (h | h) <;> exact absurd h (by simp)

/-- C2, amended: an `OnFalseJump` pops the tested value and jumps to
its target exactly when the value is falsy, where the falsy values are
Boolean false, the null value, every numeric zero, the empty list and
the empty string; every other value falls through to the next
instruction. -/
theorem C2_jump_iff_falsy (sq : Q → Q) (tape : List Instr) (t : Nat) (s : VMState)
    (v : Value) (rest : List Value)
    (hi : tape.get? s.pc = some (.onFalseJump t)) (hs : s.stack = v :: rest) :
    step sq tape s = .ok { s with pc := if truthy v then s.pc + 1 else t, stack := rest } ∧
    ∀ w : Value, truthy w = false ↔ w = .bool false ∨ w = .null ∨
      (∃ f q, w = .num f q ∧ q.num = 0) ∨ w = .list [] ∨ w = .name "" := by
  constructor
  · simp only [step, hi, hs]
    by_cases h : truthy v <;> simp [h]
  · intro w
    cases w with
    | num f q =>
      constructor
      · intro h
        refine Or.inr (Or.inr (Or.inl ⟨f, q, rfl, ?_⟩))
        have hz : qIsZero q = true := by
          by_contra hc
          simp [truthy, Bool.not_eq_true] at h hc
          rw [hc] at h
          simp at h
        simpa [qIsZero] using hz
      · rintro (h | h | ⟨f1, q1, heq, hz⟩ | h | h)
        · exact absurd h (by simp)
        · exact absurd h (by simp)
        · injection heq with h1 h2
          subst h1; subst h2
          simp [truthy, qIsZero, hz]
        · exact absurd h (by simp)
        · exact absurd h (by simp)
    | bool b => cases b <;> simp [truthy]
    | null => simp [truthy]
    | list l => cases l <;> simp [truthy]
    | name s1 =>
      constructor
      · intro h
        have h1 : s1 = "" := by
          simpa [truthy, bne] using h
        exact Or.inr (Or.inr (Or.inr (Or.inr (by rw [h1]))))
      · rintro (h | h | ⟨f1, q1, heq, hz⟩ | h | h)
        · exact absurd h (by simp)
        · exact absurd h (by simp)
        · exact absurd heq (by simp)
        · exact absurd h (by simp)
        · injection h with h1
          subst h1
          simp [truthy]
    | callable b => simp [truthy]

/-- C2, witness: the amended theorem applied to a concrete
`OnFalseJump` over a pushed null value. -/
theorem C2_jump_iff_falsy_witness :
    step (fun x => x) [Instr.onFalseJump 0] ⟨0, [Value.null], builtinEnv, []⟩ =
      .ok ⟨0, [], builtinEnv, []⟩ ∧
    ∀ w : Value, truthy w = false ↔ w = .bool false ∨ w = .null ∨
      (∃ f q, w = .num f q ∧ q.num = 0) ∨ w = .list [] ∨ w = .name "" := by
  have h := C2_jump_iff_falsy (fun x => x) [Instr.onFalseJump 0] 0
    ⟨0, [Value.null], builtinEnv, []⟩ Value.null [] rfl rfl
  simpa [truthy] using h

/-- C3: `parse_while_statement` emits, in order, a push of `None`,
the condition (starting at the loop head, the position after the
push), an `OnFalseJump` patched to just past the whole construct, a
`Discard`, the body exprlist and an unconditional `Jump` back to the
loop head; and the program `i = 0; while i < 3 do i = i + 1 end; i`
compiles and evaluates to the integer `3`. -/
theorem C3_while_compilation :
    (∀ (fuel : Nat) (code : List Instr) (st s1 st2 s2 st3 s3 : PState) (C B : List Instr),
      expects "while" st = .ok s1 →
      parse_expr fuel (code ++ [.lval none]) s1 = .ok (code ++ [.lval none] ++ C, st2) →
      expects "do" st2 = .ok s2 →
      parse_exprlist fuel (code ++ [.lval none] ++ C ++ [.onFalseJump 0, .str "DROP"]) s2 =
        .ok (code ++ [.lval none] ++ C ++ [.onFalseJump 0, .str "DROP"] ++ B, st3) →
      expects "end" st3 = .ok s3 →
      parse_while_statement (fuel + 1) code st =
        .ok (code ++ [.lval none] ++ C ++
             [.onFalseJump (code.length + C.length + B.length + 4), .str "DROP"] ++ B ++
             [.jump (code.length + 1)], s3)) ∧
    compile "test.txt" "i = 0; while i < 3 do i = i + 1 end; i" =
      .ok [.lval (some "i"), .rval (.num false ⟨0, 1⟩), .str "=", .str "DROP", .lval none,
           .idload "i", .rval (.num false ⟨3, 1⟩), .str "<", .onFalseJump 16, .str "DROP",
           .lval (some "i"), .idload "i", .rval (.num false ⟨1, 1⟩), .str "+", .str "=",
           .jump 5, .str "DROP", .idload "i"] ∧
    finalStack (runFuel (fun x => x)
      [.lval (some "i"), .rval (.num false ⟨0, 1⟩), .str "=", .str "DROP", .lval none,
       .idload "i", .rval (.num false ⟨3, 1⟩), .str "<", .onFalseJump 16, .str "DROP",
       .lval (some "i"), .idload "i", .rval (.num false ⟨1, 1⟩), .str "+", .str "=",
       .jump 5, .str "DROP", .idload "i"] 100 (initState builtinEnv)) =
      some [.num false ⟨3, 1⟩] := by
  refine ⟨?_, rfl, rfl⟩
  intro fuel code st s1 st2 s2 st3 s3 C B h1 h2 h3 h4 h5
  exact while_shape fuel code st s1 st2 s2 st3 s3 C B h1 h2 h3 h4 h5

/-- C3, witness: the while-shape applied to the concrete parse of
`while 0 do 1 end`. -/
theorem C3_while_compilation_witness :
    parse_while_statement 11 [] ⟨.str "while", ⟨"t", " 0 do 1 end".data, 1, 6⟩⟩ =
      .ok ([.lval none, .rval (.num false ⟨0, 1⟩), .onFalseJump 6, .str "DROP",
            .rval (.num false ⟨1, 1⟩), .jump 1], ⟨.str "EOF", ⟨"t", [], 1, 17⟩⟩) := by
  have h := C3_while_compilation.1 10 [] ⟨.str "while", ⟨"t", " 0 do 1 end".data, 1, 6⟩⟩
    ⟨.num false ⟨0, 1⟩, ⟨"t", " do 1 end".data, 1, 8⟩⟩
    ⟨.str "do", ⟨"t", " 1 end".data, 1, 11⟩⟩
    ⟨.num false ⟨1, 1⟩, ⟨"t", " end".data, 1, 13⟩⟩
    ⟨.str "end", ⟨"t", [], 1, 17⟩⟩ ⟨.str "EOF", ⟨"t", [], 1, 17⟩⟩
    [.rval (.num false ⟨0, 1⟩)] [.rval (.num false ⟨1, 1⟩)]
    rfl rfl rfl rfl rfl
  simpa using h

/-- C4: an `if` with no `else` compiles so that the false-jump lands
on a pushed `None` (the construct always yields a value), and the
program `if FALSE then 1 end` compiles and evaluates to the null
value. -/
theorem C4_if_no_else :
    (∀ (fuel : Nat) (code : List Instr) (st s1 st2 s2 st3 s4 : PState) (C T : List Instr),
      expects "if" st = .ok s1 →
      parse_expr fuel code s1 = .ok (code ++ C, st2) →
      expects "then" st2 = .ok s2 →
      parse_exprlist fuel (code ++ C ++ [.onFalseJump 0]) s2 =
        .ok (code ++ C ++ [.onFalseJump 0] ++ T, st3) →
      st3.tok ≠ .str "else" →
      expects "end" st3 = .ok s4 →
      parse_if_statement (fuel + 1) code st =
        .ok (code ++ C ++ [.onFalseJump (code.length + C.length + T.length + 2)] ++ T ++
             [.jump (code.length + C.length + T.length + 3), .lval none], s4)) ∧
    compile "test.txt" "if FALSE then 1 end" =
      .ok [.rval (.bool false), .onFalseJump 4, .rval (.num false ⟨1, 1⟩), .jump 5,
           .lval none] ∧
    finalStack (runFuel (fun x => x)
      [.rval (.bool false), .onFalseJump 4, .rval (.num false ⟨1, 1⟩), .jump 5, .lval none]
      10 (initState builtinEnv)) = some [.null] := by
  refine ⟨?_, rfl, rfl⟩
  intro fuel code st s1 st2 s2 st3 s4 C T h1 h2 h3 h4 h5 h6
  exact if_shape_no_else fuel code st s1 st2 s2 st3 s4 C T h1 h2 h3 h4 h5 h6

/-- C4, witness: the if-shape applied to the concrete parse of
`if FALSE then 1 end`. -/
theorem C4_if_no_else_witness :
    parse_if_statement 11 [] ⟨.str "if", ⟨"t", " FALSE then 1 end".data, 1, 3⟩⟩ =
      .ok ([.rval (.bool false), .onFalseJump 4, .rval (.num false ⟨1, 1⟩), .jump 5,
            .lval none], ⟨.str "EOF", ⟨"t", [], 1, 20⟩⟩) := by
  have h := C4_if_no_else.1 10 [] ⟨.str "if", ⟨"t", " FALSE then 1 end".data, 1, 3⟩⟩
    ⟨.str "FALSE", ⟨"t", " then 1 end".data, 1, 9⟩⟩
    ⟨.str "then", ⟨"t", " 1 end".data, 1, 14⟩⟩
    ⟨.num false ⟨1, 1⟩, ⟨"t", " end".data, 1, 16⟩⟩
    ⟨.str "end", ⟨"t", [], 1, 20⟩⟩ ⟨.str "EOF", ⟨"t", [], 1, 20⟩⟩
    [.rval (.bool false)] [.rval (.num false ⟨1, 1⟩)]
    rfl rfl rfl rfl (by simp) rfl
  simpa using h

/-- C5: the compiled `a; b; c` is the code of `a`, a `Discard`, the
code of `b`, a `Discard`, and the code of `c` (first conjunct); and
executing that region runs the three fragments in order with their
side effects accumulating in order, discards the values of `a` and
`b`, and leaves exactly the value of `c` (second conjunct). -/
theorem C5_exprlist_sequencing :
    (∀ (f : Nat) (code : List Instr) (st st1 st2 st3 st4 st5 : PState)
       (A B C : List Instr),
      parse_expr (f + 3) code st = .ok (code ++ A, st1) →
      st1.tok = .str ";" →
      pAdvance st1 = .ok st2 →
      parse_expr (f + 2) (code ++ A ++ [.str "DROP"]) st2 =
        .ok (code ++ A ++ [.str "DROP"] ++ B, st3) →
      st3.tok = .str ";" →
      pAdvance st3 = .ok st4 →
      parse_expr (f + 1) (code ++ A ++ [.str "DROP"] ++ B ++ [.str "DROP"]) st4 =
        .ok (code ++ A ++ [.str "DROP"] ++ B ++ [.str "DROP"] ++ C, st5) →
      st5.tok ≠ .str ";" →
      parse_exprlist (f + 4) code st =
        .ok (code ++ A ++ [.str "DROP"] ++ B ++ [.str "DROP"] ++ C, st5)) ∧
    (∀ (sq : Q → Q) (tape P A B C R : List Instr) (st0 : List Value)
       (env0 env1 env2 env3 : Value → Option Value)
       (out0 out1 out2 out3 : List (List Value)) (va vb vc : Value) (kA kB kC : Nat),
      tape = P ++ A ++ [.str "DROP"] ++ B ++ [.str "DROP"] ++ C ++ R →
      stepN sq tape kA ⟨P.length, st0, env0, out0⟩ =
        .ok ⟨P.length + A.length, va :: st0, env1, out1⟩ →
      stepN sq tape kB ⟨P.length + A.length + 1, st0, env1, out1⟩ =
        .ok ⟨P.length + A.length + 1 + B.length, vb :: st0, env2, out2⟩ →
      stepN sq tape kC ⟨P.length + A.length + 1 + B.length + 1, st0, env2, out2⟩ =
        .ok ⟨P.length + A.length + 1 + B.length + 1 + C.length, vc :: st0, env3, out3⟩ →
      stepN sq tape (kA + (1 + (kB + (1 + kC)))) ⟨P.length, st0, env0, out0⟩ =
        .ok ⟨P.length + A.length + 1 + B.length + 1 + C.length, vc :: st0, env3, out3⟩) :=
  ⟨exprlist_seq_shape, exprlist_seq_sem⟩

/-- C5, witness: both parts applied to the concrete program
`1; 2; 3` — its parse and its five-step execution ending with only the
value of the last expression. -/
theorem C5_exprlist_sequencing_witness :
    parse_exprlist 14 [] ⟨.num false ⟨1, 1⟩, ⟨"t", "; 2; 3".data, 1, 2⟩⟩ =
      .ok ([.rval (.num false ⟨1, 1⟩), .str "DROP", .rval (.num false ⟨2, 1⟩), .str "DROP",
            .rval (.num false ⟨3, 1⟩)], ⟨.str "EOF", ⟨"t", [], 1, 8⟩⟩) ∧
    stepN (fun x => x)
      [.rval (.num false ⟨1, 1⟩), .str "DROP", .rval (.num false ⟨2, 1⟩), .str "DROP",
       .rval (.num false ⟨3, 1⟩)] (1 + (1 + (1 + (1 + 1)))) ⟨0, [], builtinEnv, []⟩ =
      .ok ⟨5, [.num false ⟨3, 1⟩], builtinEnv, []⟩ := by
  constructor
  · have h := C5_exprlist_sequencing.1 10 [] ⟨.num false ⟨1, 1⟩, ⟨"t", "; 2; 3".data, 1, 2⟩⟩
      ⟨.str ";", ⟨"t", " 2; 3".data, 1, 3⟩⟩ ⟨.num false ⟨2, 1⟩, ⟨"t", "; 3".data, 1, 5⟩⟩
      ⟨.str ";", ⟨"t", " 3".data, 1, 6⟩⟩ ⟨.num false ⟨3, 1⟩, ⟨"t", [], 1, 8⟩⟩
      ⟨.str "EOF", ⟨"t", [], 1, 8⟩⟩
      [.rval (.num false ⟨1, 1⟩)] [.rval (.num false ⟨2, 1⟩)] [.rval (.num false ⟨3, 1⟩)]
      rfl rfl rfl rfl rfl rfl rfl (by decide)
    simpa using h
  · have h := C5_exprlist_sequencing.2 (fun x => x)
      [.rval (.num false ⟨1, 1⟩), .str "DROP", .rval (.num false ⟨2, 1⟩), .str "DROP",
       .rval (.num false ⟨3, 1⟩)]
      [] [.rval (.num false ⟨1, 1⟩)] [.rval (.num false ⟨2, 1⟩)] [.rval (.num false ⟨3, 1⟩)] []
      [] builtinEnv builtinEnv builtinEnv builtinEnv [] [] [] []
      (.num false ⟨1, 1⟩) (.num false ⟨2, 1⟩) (.num false ⟨3, 1⟩) 1 1 1
      rfl rfl rfl rfl
    simpa using h

/-- C6, counterexample: the claim quantifies over every pair of Number
operands, but dividing by the number zero raises a
`ZeroDivisionError` instead of yielding a floating-point quotient. -/
theorem C6_counterexample :
    applyBin (fun x => x) "/" (Value.num false ⟨1, 1⟩) (Value.num false ⟨0, 1⟩) = none ∧
    ∀ (q : Q) (outs : List (List Value)),
      applyBin (fun x => x) "/" (Value.num false ⟨1, 1⟩) (Value.num false ⟨0, 1⟩) ≠
        some (Value.num true q, outs) := by
  refine ⟨rfl, ?_⟩
  intro q outs h
  rw [(rfl : applyBin (fun x => x) "/" (Value.num false ⟨1, 1⟩) (Value.num false ⟨0, 1⟩)
    = none)] at h
  exact Option.noConfusion h

/-- C6, amended: for every pair of Number operands whose divisor is
nonzero, `div` yields the float-kind true quotient regardless of the
operand kinds (never a truncating integer division); dividing by zero
faults.  In particular `7 / 2` evaluates to the float `7/2 = 3.5`,
which differs from `3`. -/
theorem C6_div_always_float (sq : Q → Q) (f1 f2 : Bool) (a b : Q)
    (hb : qIsZero b = false) :
    applyBin sq "/" (.num f1 a) (.num f2 b) = some (.num true (qDiv a b), []) ∧
    compile "test.txt" "7 / 2" =
      .ok [.rval (.num false ⟨7, 1⟩), .rval (.num false ⟨2, 1⟩), .str "/"] ∧
    finalStack (runFuel sq [.rval (.num false ⟨7, 1⟩), .rval (.num false ⟨2, 1⟩), .str "/"]
      10 (initState builtinEnv)) = some [.num true ⟨7, 2⟩] ∧
    qEq ⟨7, 2⟩ (qOfInt 3) = false := by
  refine ⟨?_, rfl, rfl, by decide⟩
  simp [applyBin, pyDiv, asNum, hb]

/-- C6, witness: the amended theorem applied at `7 / 2`. -/
theorem C6_div_always_float_witness :
    applyBin (fun x => x) "/" (.num false ⟨7, 1⟩) (.num false ⟨2, 1⟩) =
      some (.num true (qDiv ⟨7, 1⟩ ⟨2, 1⟩), []) ∧
    compile "test.txt" "7 / 2" =
      .ok [.rval (.num false ⟨7, 1⟩), .rval (.num false ⟨2, 1⟩), .str "/"] ∧
    finalStack (runFuel (fun x => x)
      [.rval (.num false ⟨7, 1⟩), .rval (.num false ⟨2, 1⟩), .str "/"]
      10 (initState builtinEnv)) = some [.num true ⟨7, 2⟩] ∧
    qEq ⟨7, 2⟩ (qOfInt 3) = false :=
  C6_div_always_float (fun x => x) false false ⟨7, 1⟩ ⟨2, 1⟩ rfl

/-- C8: executing a `LoadVar` of a name with no binding in the
environment faults with a `NameFault` (a `KeyError` in CPython)
rather than substituting a default; and `y + 1` with `y` unbound
compiles fine but evaluates to exactly that fault. -/
theorem C8_unbound_name_fault :
    (∀ (sq : Q → Q) (tape : List Instr) (s : VMState) (nm : String),
      tape.get? s.pc = some (.idload nm) → s.env (.name nm) = none →
      step sq tape s = .error (.nameFault nm)) ∧
    compile "test.txt" "y + 1" =
      .ok [.idload "y", .rval (.num false ⟨1, 1⟩), .str "+"] ∧
    runFuel (fun x => x) [.idload "y", .rval (.num false ⟨1, 1⟩), .str "+"] 10
      (initState builtinEnv) = .fault (.nameFault "y") := by
  refine ⟨?_, rfl, rfl⟩
  intro sq tape s nm hi he
  simp only [step, hi, he]

/-- C8, witness: the general fault rule applied to a concrete load of
an unbound name over the built-in environment. -/
theorem C8_unbound_name_fault_witness :
    step (fun x => x) [Instr.idload "zz"] ⟨0, [], builtinEnv, []⟩ =
      .error (.nameFault "zz") :=
  C8_unbound_name_fault.1 (fun x => x) [Instr.idload "zz"] ⟨0, [], builtinEnv, []⟩ "zz" rfl rfl

/-- C9: a leading unary sign on an arithmetic expression applies to
the first term only — after the first term is compiled a `Negate` is
appended exactly when the sign was `-` (and nothing for `+`), before
the additive loop continues; hence `-a + b` compiles to the code of
`(-a) + b` and `-a * b` to the code of `-(a * b)`, and they evaluate
accordingly (with `a = 2`, `b = 5`: `3` and `-10`). -/
theorem C9_leading_sign :
    (∀ (fuel : Nat) (code : List Instr) (st : PState), st.tok = .str "-" →
      parse_arexpr (fuel + 1) code st =
        (pAdvance st).bind fun s1 =>
          (parse_term fuel code s1).bind fun r =>
            arexprLoop fuel (r.1 ++ [.str "NEG"]) r.2) ∧
    (∀ (fuel : Nat) (code : List Instr) (st : PState), st.tok = .str "+" →
      parse_arexpr (fuel + 1) code st =
        (pAdvance st).bind fun s1 =>
          (parse_term fuel code s1).bind fun r =>
            arexprLoop fuel r.1 r.2) ∧
    compile "test.txt" "-a + b" =
      .ok [.idload "a", .str "NEG", .idload "b", .str "+"] ∧
    compile "test.txt" "-a * b" =
      .ok [.idload "a", .idload "b", .str "*", .str "NEG"] ∧
    finalStack (runFuel (fun x => x) [.idload "a", .str "NEG", .idload "b", .str "+"] 10
      (initState (fun k => if pyEq k (.name "a") then some (.num false ⟨2, 1⟩)
        else if pyEq k (.name "b") then some (.num false ⟨5, 1⟩) else none))) =
      some [.num false ⟨3, 1⟩] ∧
    finalStack (runFuel (fun x => x) [.idload "a", .idload "b", .str "*", .str "NEG"] 10
      (initState (fun k => if pyEq k (.name "a") then some (.num false ⟨2, 1⟩)
        else if pyEq k (.name "b") then some (.num false ⟨5, 1⟩) else none))) =
      some [.num false ⟨-10, 1⟩] := by
  refine ⟨?_, ?_, rfl, rfl, rfl, rfl⟩
  · intro fuel code st h
    obtain ⟨tok, ls⟩ := st
    simp only at h
    subst h
    rfl
  · intro fuel code st h
    obtain ⟨tok, ls⟩ := st
    simp only at h
    subst h
    rfl

/-- C9, witness: the leading-minus rule applied to a concrete parser
state. -/
theorem C9_leading_sign_witness :
    parse_arexpr 1 [] ⟨.str "-", ⟨"t", [], 1, 1⟩⟩ =
      (pAdvance ⟨.str "-", ⟨"t", [], 1, 1⟩⟩).bind fun s1 =>
        (parse_term 0 [] s1).bind fun r =>
          arexprLoop 0 (r.1 ++ [.str "NEG"]) r.2 :=
  C9_leading_sign.1 0 [] ⟨.str "-", ⟨"t", [], 1, 1⟩⟩ rfl

/-- C10: executing an `Assign` with a value on top of a pushed name
binds exactly that name (Python dict update keyed on `==`), pushes the
value back, and leaves the rest of the stack, every other binding and
the output trace unchanged. -/
theorem C10_assign_frame_effect (sq : Q → Q) (tape : List Instr) (s : VMState)
    (nm : String) (v : Value) (rest : List Value)
    (hi : tape.get? s.pc = some (.str "=")) (hs : s.stack = v :: .name nm :: rest) :
    ∃ env2, step sq tape s = .ok ⟨s.pc + 1, v :: rest, env2, s.out⟩ ∧
      env2 (.name nm) = some v ∧
      (∀ m : String, m ≠ nm → env2 (.name m) = s.env (.name m)) ∧
      (∀ k : Value, pyEq k (.name nm) = false → env2 k = s.env k) := by
  refine ⟨fun k => if pyEq k (.name nm) then some v else s.env k, ?_, ?_, ?_, ?_⟩
  · have h1 : ¬ ("=" ∈ binKeys) := by decide
    simp only [step, hi, hs]
    simp [h1]
  · simp [pyEq]
  · intro m hm
    simp [pyEq, hm]
  · intro k hk
    simp [hk]

/-- C10, witness: the assignment frame rule applied to a concrete
`x = 5` step over the built-in environment. -/
theorem C10_assign_frame_effect_witness : ∃ env2,
    step (fun x => x) [Instr.str "="]
      ⟨0, [Value.num false ⟨5, 1⟩, Value.name "x"], builtinEnv, []⟩ =
      .ok ⟨1, [Value.num false ⟨5, 1⟩], env2, []⟩ ∧
    env2 (.name "x") = some (Value.num false ⟨5, 1⟩) ∧
    (∀ m : String, m ≠ "x" → env2 (.name m) = builtinEnv (.name m)) ∧
    (∀ k : Value, pyEq k (.name "x") = false → env2 k = builtinEnv k) :=
  C10_assign_frame_effect (fun x => x) [Instr.str "="]
    ⟨0, [Value.num false ⟨5, 1⟩, Value.name "x"], builtinEnv, []⟩ "x"
    (Value.num false ⟨5, 1⟩) [] rfl rfl

theorem get?_some_lt {α : Type} {l : List α} {n : Nat} {a : α} (h : l.get? n = some a) :
    n < l.length := by
  by_contra hc
  rw [List.get?_eq_none.mpr (by omega)] at h
  exact Option.noConfusion h

theorem chunk_single (b : Nat) (inst : Instr) (d1 d2 : Nat)
    (h : instrOKL b [d1, d2] 0 inst) : Chunk b [inst] [d1, d2] d1 d2 := by
  refine ⟨rfl, rfl, rfl, ?_⟩
  intro i ins hi
  cases i with
  | zero =>
    injection hi with h1
    subst h1
    exact h
  | succ n => simp at hi

theorem chunk_nil (b e : Nat) : Chunk b [] [e] e e := by
  refine ⟨rfl, rfl, rfl, ?_⟩
  intro i ins hi
  simp at hi

theorem chunk_rval (b d : Nat) (v : Value) : Chunk b [.rval v] [d, d + 1] d (d + 1) :=
  chunk_single b _ d (d + 1) ⟨d, rfl, rfl⟩

theorem chunk_idload (b d : Nat) (nm : String) :
    Chunk b [.idload nm] [d, d + 1] d (d + 1) :=
  chunk_single b _ d (d + 1) ⟨d, rfl, rfl⟩

theorem chunk_lval (b d : Nat) (nm : Option String) :
    Chunk b [.lval nm] [d, d + 1] d (d + 1) :=
  chunk_single b _ d (d + 1) ⟨d, rfl, rfl⟩

theorem chunk_mklist (b d : Nat) : Chunk b [.str "[]"] [d, d + 1] d (d + 1) := by
  apply chunk_single
  simp only [instrOKL]
  rw [if_neg (show ¬ ("[]" ∈ binKeys) by decide), if_neg (show ¬ ("[]" = "NEG") by decide),
      if_neg (show ¬ ("[]" = "=") by decide), if_neg (show ¬ ("[]" = "DROP") by decide),
      if_pos trivial]
  exact ⟨d, rfl, rfl⟩

theorem chunk_bin (b d : Nat) (op : String) (h : op ∈ binKeys) :
    Chunk b [.str op] [d + 2, d + 1] (d + 2) (d + 1) := by
  apply chunk_single
  simp only [instrOKL]
  rw [if_pos h]
  exact ⟨d, rfl, rfl⟩

theorem chunk_neg (b d : Nat) : Chunk b [.str "NEG"] [d + 1, d + 1] (d + 1) (d + 1) := by
  apply chunk_single
  simp only [instrOKL]
  rw [if_neg (show ¬ ("NEG" ∈ binKeys) by decide), if_pos trivial]
  exact ⟨d, rfl, rfl⟩

theorem chunk_assign (b d : Nat) : Chunk b [.str "="] [d + 2, d + 1] (d + 2) (d + 1) := by
  apply chunk_single
  simp only [instrOKL]
  rw [if_neg (show ¬ ("=" ∈ binKeys) by decide), if_neg (show ¬ ("=" = "NEG") by decide),
      if_pos trivial]
  exact ⟨d, rfl, rfl⟩

theorem chunk_drop (b d : Nat) : Chunk b [.str "DROP"] [d + 1, d] (d + 1) d := by
  apply chunk_single
  simp only [instrOKL]
  rw [if_neg (show ¬ ("DROP" ∈ binKeys) by decide), if_neg (show ¬ ("DROP" = "NEG") by decide),
      if_neg (show ¬ ("DROP" = "=") by decide), if_pos trivial]
  exact ⟨d, rfl, rfl⟩

theorem shift_pair {off i : Nat} {L Lc : List Nat}
    (hget : ∀ k, k < L.length → Lc.get? (off + k) = L.get? k)
    {P R : Nat → Nat} (h : ∃ d, L.get? i = some (P d) ∧ L.get? (i + 1) = some (R d)) :
    ∃ d, Lc.get? (off + i) = some (P d) ∧ Lc.get? (off + i + 1) = some (R d) := by
  obtain ⟨d, h1, h2⟩ := h
  refine ⟨d, ?_, ?_⟩
  · rw [hget i (get?_some_lt h1)]
    exact h1
  · rw [show off + i + 1 = off + (i + 1) by omega, hget (i + 1) (get?_some_lt h2)]
    exact h2

theorem instrOKL_shift (b bIn off : Nat) (L Lc : List Nat) (i : Nat) (inst : Instr)
    (hb : bIn = b + off)
    (hget : ∀ k, k < L.length → Lc.get? (off + k) = L.get? k)
    (h : instrOKL bIn L i inst) :
    instrOKL b Lc (off + i) inst := by
  subst hb
  cases inst with
  | rval v => exact shift_pair hget h
  | idload nm => exact shift_pair hget h
  | lval nm => exact shift_pair hget h
  | onFalseJump t =>
    obtain ⟨d, h1, h2, h3, h4⟩ := h
    refine ⟨d, ?_, ?_, by omega, ?_⟩
    · rw [hget i (get?_some_lt h1)]
      exact h1
    · rw [show off + i + 1 = off + (i + 1) by omega, hget (i + 1) (get?_some_lt h2)]
      exact h2
    · rw [show t - b = off + (t - (b + off)) by omega, hget _ (get?_some_lt h4)]
      exact h4
  | jump t =>
    obtain ⟨d, h1, h3, h4⟩ := h
    refine ⟨d, ?_, by omega, ?_⟩
    · rw [hget i (get?_some_lt h1)]
      exact h1
    · rw [show t - b = off + (t - (b + off)) by omega, hget _ (get?_some_lt h4)]
      exact h4
  | str s =>
    simp only [instrOKL] at h ⊢
    by_cases hq1 : s ∈ binKeys
    · rw [if_pos hq1] at h ⊢
      exact shift_pair hget h
    · rw [if_neg hq1] at h ⊢
      by_cases hq2 : s = "NEG"
      · rw [if_pos hq2] at h ⊢
        exact shift_pair hget h
      · rw [if_neg hq2] at h ⊢
        by_cases hq3 : s = "="
        · rw [if_pos hq3] at h ⊢
          exact shift_pair hget h
        · rw [if_neg hq3] at h ⊢
          by_cases hq4 : s = "DROP"
          · rw [if_pos hq4] at h ⊢
            exact shift_pair hget h
          · rw [if_neg hq4] at h ⊢
            by_cases hq5 : s = "[]"
            · rw [if_pos hq5] at h ⊢
              exact shift_pair hget h
            · rw [if_neg hq5] at h ⊢
              exact h

theorem Chunk.append {b : Nat} {D1 D2 : List Instr} {L1 L2 : List Nat} {d1 d2 d3 : Nat}
    (h1 : Chunk b D1 L1 d1 d2) (h2 : Chunk (b + D1.length) D2 L2 d2 d3) :
    Chunk b (D1 ++ D2) (L1 ++ L2.tail) d1 d3 := by
  obtain ⟨hl1, hh1, he1, hc1⟩ := h1
  obtain ⟨hl2, hh2, he2, hc2⟩ := h2
  have hkey : ∀ k, k < L2.length → (L1 ++ L2.tail).get? (D1.length + k) = L2.get? k := by
    intro k hk
    cases k with
    | zero =>
      rw [Nat.add_zero]
      rw [List.get?_append (show D1.length < L1.length by omega)]
      rw [he1, hh2]
    | succ k2 =>
      rw [List.get?_append_right (show L1.length ≤ D1.length + (k2 + 1) by omega)]
      rw [show D1.length + (k2 + 1) - L1.length = k2 by omega]
      cases L2 with
      | nil => simp at hk
      | cons a l2 => rfl
  have hkey1 : ∀ k, k < L1.length → (L1 ++ L2.tail).get? k = L1.get? k :=
    fun k hk => List.get?_append hk
  refine ⟨?_, ?_, ?_, ?_⟩
  · simp only [List.length_append, List.length_tail, hl1, hl2]
    omega
  · rw [hkey1 0 (by omega)]
    exact hh1
  · rw [List.length_append, hkey D2.length (by omega)]
    exact he2
  · intro i inst hi
    by_cases hcase : i < D1.length
    · rw [List.get?_append hcase] at hi
      have hok := hc1 i inst hi
      have hres := instrOKL_shift b b 0 L1 (L1 ++ L2.tail) i inst (by omega)
        (fun k hk => by rw [Nat.zero_add]; exact hkey1 k hk) hok
      rwa [Nat.zero_add] at hres
    · rw [List.get?_append_right (by omega)] at hi
      have hok := hc2 _ inst hi
      have hres := instrOKL_shift b (b + D1.length) D1.length L2 (L1 ++ L2.tail)
        (i - D1.length) inst rfl hkey hok
      rwa [show D1.length + (i - D1.length) = i by omega] at hres


theorem chunk_while (b e : Nat) (C B : List Instr) (LC LB : List Nat)
    (hC : Chunk (b + 1) C LC (e + 1) (e + 2))
    (hB : Chunk (b + C.length + 3) B LB e (e + 1)) :
    Chunk b (.lval none :: (C ++ .onFalseJump (b + C.length + B.length + 4) ::
             .str "DROP" :: (B ++ [.jump (b + 1)])))
      (e :: (LC ++ (e + 1) :: (LB ++ [e + 1]))) e (e + 1) := by
  obtain ⟨hlC, hhC, heC, hcC⟩ := hC
  obtain ⟨hlB, hhB, heB, hcB⟩ := hB
  have hL1 : ∀ k, k < LC.length →
      (e :: (LC ++ (e + 1) :: (LB ++ [e + 1]))).get? (1 + k) = LC.get? k := by
    intro k hk
    rw [show 1 + k = k + 1 by omega, List.get?_cons_succ]
    exact List.get?_append hk
  have hLmid : (e :: (LC ++ (e + 1) :: (LB ++ [e + 1]))).get? (2 + C.length) =
      some (e + 1) := by
    rw [show 2 + C.length = (1 + C.length) + 1 by omega, List.get?_cons_succ,
        show 1 + C.length = LC.length by omega]
    exact get_at_len _ _ _
  have hLB2 : ∀ k, k < LB.length →
      (e :: (LC ++ (e + 1) :: (LB ++ [e + 1]))).get? (3 + C.length + k) = LB.get? k := by
    intro k hk
    rw [show 3 + C.length + k = (2 + C.length + k) + 1 by omega, List.get?_cons_succ]
    rw [List.get?_append_right (show LC.length ≤ 2 + C.length + k by omega)]
    rw [show 2 + C.length + k - LC.length = k + 1 by omega, List.get?_cons_succ]
    exact List.get?_append hk
  have hLend : (e :: (LC ++ (e + 1) :: (LB ++ [e + 1]))).get? (4 + C.length + B.length) =
      some (e + 1) := by
    rw [show 4 + C.length + B.length = (3 + C.length + B.length) + 1 by omega,
        List.get?_cons_succ]
    rw [List.get?_append_right (show LC.length ≤ 3 + C.length + B.length by omega)]
    rw [show 3 + C.length + B.length - LC.length = (B.length + 1) + 1 by omega,
        List.get?_cons_succ]
    rw [show B.length + 1 = LB.length by omega]
    exact get_at_len _ _ _
  have hLjump : (e :: (LC ++ (e + 1) :: (LB ++ [e + 1]))).get? 1 = some (e + 1) := by
    rw [List.get?_cons_succ]
    rw [List.get?_append (show 0 < LC.length by omega)]
    exact hhC
  refine ⟨?_, rfl, ?_, ?_⟩
  · simp only [List.length_cons, List.length_append, List.length_nil]
    omega
  · rw [show (Instr.lval none :: (C ++ Instr.onFalseJump (b + C.length + B.length + 4) ::
        Instr.str "DROP" :: (B ++ [Instr.jump (b + 1)]))).length =
        4 + C.length + B.length by
      simp only [List.length_cons, List.length_append, List.length_nil]
      omega]
    exact hLend
  · intro i inst hi
    by_cases h0 : i = 0
    · subst h0
      injection hi with h1
      subst h1
      exact ⟨e, rfl, by rw [show (0:Nat) + 1 = 1 by omega]; exact hLjump⟩
    by_cases hrC : i ≤ C.length
    · have hj : i = 1 + (i - 1) := by omega
      have hjlt : i - 1 < C.length := by omega
      rw [hj, show 1 + (i - 1) = (i - 1) + 1 by omega, List.get?_cons_succ] at hi
      rw [List.get?_append hjlt] at hi
      have hok := hcC (i - 1) inst hi
      have hres := instrOKL_shift b (b + 1) 1 LC
        (e :: (LC ++ (e + 1) :: (LB ++ [e + 1]))) (i - 1) inst (by omega) hL1 hok
      rwa [show 1 + (i - 1) = i by omega] at hres
    by_cases hofj : i = C.length + 1
    · subst hofj
      rw [show C.length + 1 = C.length + 1 from rfl, List.get?_cons_succ] at hi
      rw [get_at_len] at hi
      injection hi with h1
      subst h1
      refine ⟨e + 1, ?_, ?_, by omega, ?_⟩
      · rw [show C.length + 1 = 1 + C.length by omega, hL1 C.length (by omega)]
        exact heC
      · rw [show C.length + 1 + 1 = 2 + C.length by omega]
        exact hLmid
      · rw [show b + C.length + B.length + 4 - b = 4 + C.length + B.length by omega]
        exact hLend
    by_cases hdrop : i = C.length + 2
    · subst hdrop
      rw [show C.length + 2 = (C.length + 1) + 1 from by omega, List.get?_cons_succ] at hi
      rw [List.get?_append_right (show C.length ≤ C.length + 1 by omega)] at hi
      rw [show C.length + 1 - C.length = 1 by omega] at hi
      rw [List.get?_cons_succ] at hi
      rw [List.get?_cons_zero] at hi
      injection hi with h1
      subst h1
      simp only [instrOKL]
      rw [if_neg (show ¬ ("DROP" ∈ binKeys) by decide),
          if_neg (show ¬ ("DROP" = "NEG") by decide),
          if_neg (show ¬ ("DROP" = "=") by decide), if_pos trivial]
      refine ⟨e, ?_, ?_⟩
      · rw [show C.length + 2 = 2 + C.length by omega]
        exact hLmid
      · rw [show C.length + 2 + 1 = 3 + C.length + 0 by omega, hLB2 0 (by omega)]
        exact hhB
    by_cases hrB : i ≤ C.length + 2 + B.length
    · have hj : i = 3 + C.length + (i - (C.length + 3)) := by omega
      have hjlt : i - (C.length + 3) < B.length := by omega
      rw [hj, show 3 + C.length + (i - (C.length + 3)) =
        (2 + C.length + (i - (C.length + 3))) + 1 by omega, List.get?_cons_succ] at hi
      rw [List.get?_append_right
        (show C.length ≤ 2 + C.length + (i - (C.length + 3)) by omega)] at hi
      rw [show 2 + C.length + (i - (C.length + 3)) - C.length =
        ((i - (C.length + 3)) + 1) + 1 by omega] at hi
      rw [List.get?_cons_succ, List.get?_cons_succ] at hi
      rw [List.get?_append hjlt] at hi
      have hok := hcB (i - (C.length + 3)) inst hi
      have hres := instrOKL_shift b (b + C.length + 3) (3 + C.length) LB
        (e :: (LC ++ (e + 1) :: (LB ++ [e + 1]))) (i - (C.length + 3)) inst
        (by omega) hLB2 hok
      rwa [show 3 + C.length + (i - (C.length + 3)) = i by omega] at hres
    by_cases hjmp : i = C.length + 3 + B.length
    · subst hjmp
      rw [show C.length + 3 + B.length = (2 + C.length + B.length) + 1 by omega,
          List.get?_cons_succ] at hi
      rw [List.get?_append_right (show C.length ≤ 2 + C.length + B.length by omega)] at hi
      rw [show 2 + C.length + B.length - C.length = (B.length + 1) + 1 by omega] at hi
      rw [List.get?_cons_succ, List.get?_cons_succ] at hi
      rw [get_at_len] at hi
      injection hi with h1
      subst h1
      refine ⟨e + 1, ?_, by omega, ?_⟩
      · rw [show C.length + 3 + B.length = 3 + C.length + B.length by omega,
            hLB2 B.length (by omega)]
        exact heB
      · rw [show b + 1 - b = 1 by omega]
        exact hLjump
    · exfalso
      have hlen : (Instr.lval none :: (C ++ Instr.onFalseJump (b + C.length + B.length + 4) ::
          Instr.str "DROP" :: (B ++ [Instr.jump (b + 1)]))).length =
          4 + C.length + B.length := by
        simp only [List.length_cons, List.length_append, List.length_nil]
        omega
      have : i ≥ 4 + C.length + B.length := by omega
      rw [List.get?_eq_none.mpr (by omega)] at hi
      exact Option.noConfusion hi



theorem chunk_if (b e : Nat) (C T E : List Instr) (LC LT LE : List Nat)
    (hC : Chunk b C LC e (e + 1))
    (hT : Chunk (b + C.length + 1) T LT e (e + 1))
    (hE : Chunk (b + C.length + T.length + 2) E LE e (e + 1)) :
    Chunk b (C ++ .onFalseJump (b + C.length + T.length + 2) ::
             (T ++ .jump (b + C.length + T.length + 2 + E.length) :: E))
      (LC ++ (LT ++ LE)) e (e + 1) := by
  obtain ⟨hlC, hhC, heC, hcC⟩ := hC
  obtain ⟨hlT, hhT, heT, hcT⟩ := hT
  obtain ⟨hlE, hhE, heE, hcE⟩ := hE
  have hK1 : ∀ k, k < LC.length → (LC ++ (LT ++ LE)).get? k = LC.get? k := by
    intro k hk
    exact List.get?_append hk
  have hK2 : ∀ k, k < LT.length →
      (LC ++ (LT ++ LE)).get? (C.length + 1 + k) = LT.get? k := by
    intro k hk
    rw [List.get?_append_right (show LC.length ≤ C.length + 1 + k by omega)]
    rw [show C.length + 1 + k - LC.length = k by omega]
    exact List.get?_append hk
  have hK3 : ∀ k, k < LE.length →
      (LC ++ (LT ++ LE)).get? (C.length + T.length + 2 + k) = LE.get? k := by
    intro k hk
    rw [List.get?_append_right (show LC.length ≤ C.length + T.length + 2 + k by omega)]
    rw [List.get?_append_right
      (show LT.length ≤ C.length + T.length + 2 + k - LC.length by omega)]
    rw [show C.length + T.length + 2 + k - LC.length - LT.length = k by omega]
  refine ⟨?_, ?_, ?_, ?_⟩
  · simp only [List.length_append, List.length_cons]
    omega
  · rw [hK1 0 (by omega)]
    exact hhC
  · rw [show (C ++ Instr.onFalseJump (b + C.length + T.length + 2) ::
        (T ++ Instr.jump (b + C.length + T.length + 2 + E.length) :: E)).length =
        C.length + T.length + 2 + E.length by
      simp only [List.length_append, List.length_cons]
      omega]
    rw [hK3 E.length (by omega)]
    exact heE
  · intro i inst hi
    by_cases hrC : i < C.length
    · rw [List.get?_append hrC] at hi
      have hok := hcC i inst hi
      have hres := instrOKL_shift b b 0 LC (LC ++ (LT ++ LE)) i inst (by omega)
        (fun k hk => by rw [Nat.zero_add]; exact hK1 k hk) hok
      rwa [Nat.zero_add] at hres
    by_cases hofj : i = C.length
    · subst hofj
      rw [get_at_len] at hi
      injection hi with h1
      subst h1
      refine ⟨e, ?_, ?_, by omega, ?_⟩
      · rw [hK1 C.length (by omega)]
        exact heC
      · rw [show C.length + 1 = C.length + 1 + 0 by omega, hK2 0 (by omega)]
        exact hhT
      · rw [show b + C.length + T.length + 2 - b = C.length + T.length + 2 + 0 by omega,
            hK3 0 (by omega)]
        exact hhE
    by_cases hrT : i ≤ C.length + T.length
    · have hj : i - (C.length + 1) < T.length := by omega
      rw [List.get?_append_right (show C.length ≤ i by omega)] at hi
      rw [show i - C.length = (i - (C.length + 1)) + 1 by omega, List.get?_cons_succ] at hi
      rw [List.get?_append hj] at hi
      have hok := hcT _ inst hi
      have hres := instrOKL_shift b (b + C.length + 1) (C.length + 1) LT
        (LC ++ (LT ++ LE)) (i - (C.length + 1)) inst (by omega) hK2 hok
      rwa [show C.length + 1 + (i - (C.length + 1)) = i by omega] at hres
    by_cases hjmp : i = C.length + T.length + 1
    · subst hjmp
      rw [List.get?_append_right (show C.length ≤ C.length + T.length + 1 by omega)] at hi
      rw [show C.length + T.length + 1 - C.length = T.length + 1 by omega,
          List.get?_cons_succ] at hi
      rw [get_at_len] at hi
      injection hi with h1
      subst h1
      refine ⟨e + 1, ?_, by omega, ?_⟩
      · rw [show C.length + T.length + 1 = C.length + 1 + T.length by omega,
            hK2 T.length (by omega)]
        exact heT
      · rw [show b + C.length + T.length + 2 + E.length - b =
            C.length + T.length + 2 + E.length by omega, hK3 E.length (by omega)]
        exact heE
    by_cases hrE : i < C.length + T.length + 2 + E.length
    · have hj : i - (C.length + T.length + 2) < E.length := by omega
      rw [List.get?_append_right (show C.length ≤ i by omega)] at hi
      rw [show i - C.length = (i - (C.length + 1)) + 1 by omega, List.get?_cons_succ] at hi
      rw [List.get?_append_right (show T.length ≤ i - (C.length + 1) by omega)] at hi
      rw [show i - (C.length + 1) - T.length = (i - (C.length + T.length + 2)) + 1 by omega,
          List.get?_cons_succ] at hi
      have hok := hcE _ inst hi
      have hres := instrOKL_shift b (b + C.length + T.length + 2) (C.length + T.length + 2)
        LE (LC ++ (LT ++ LE)) (i - (C.length + T.length + 2)) inst (by omega) hK3 hok
      rwa [show C.length + T.length + 2 + (i - (C.length + T.length + 2)) = i by omega] at hres
    · exfalso
      have hlen : (C ++ Instr.onFalseJump (b + C.length + T.length + 2) ::
          (T ++ Instr.jump (b + C.length + T.length + 2 + E.length) :: E)).length =
          C.length + T.length + 2 + E.length := by
        simp only [List.length_append, List.length_cons]
        omega
      rw [List.get?_eq_none.mpr (by omega)] at hi
      exact Option.noConfusion hi


theorem runFuel_zero (sq : Q → Q) (tape : List Instr) (s : VMState) :
    runFuel sq tape 0 s = if s.pc < tape.length then .fuelOut else .done s := rfl

theorem runFuel_succ (sq : Q → Q) (tape : List Instr) (fuel : Nat) (s : VMState) :
    runFuel sq tape (fuel + 1) s =
      if s.pc < tape.length then
        match step sq tape s with
        | .error e => .fault e
        | .ok s2 => runFuel sq tape fuel s2
      else .done s := rfl

theorem get?_as_getElem (tape : List Instr) (pc : Nat) (inst : Instr)
    (h : tape.get? pc = some inst) : tape[pc]? = some inst := by
  rw [← List.get?_eq_getElem?]
  exact h

theorem vm_classify (sq : Q → Q) (tape : List Instr) (L : List Nat)
    (hOK : ∀ i inst, tape.get? i = some inst → instrOKL 0 L i inst) :
    ∀ (fuel : Nat) (s : VMState), L.get? s.pc = some s.stack.length →
      ∀ f, runFuel sq tape fuel s = .fault f →
        (∃ nm, f = Fault.nameFault nm) ∨ f = Fault.opFault := by
  intro fuel
  induction fuel with
  | zero =>
    intro s hs f hf
    rw [runFuel_zero] at hf
    split_ifs at hf
  | succ fuel ih =>
    intro s hs f hf
    obtain ⟨pc, stack, env, out⟩ := s
    simp only at hs
    rw [runFuel_succ] at hf
    by_cases hpc : pc < tape.length
    case neg =>
      rw [if_neg hpc] at hf
      exact RunRes.noConfusion hf
    rw [if_pos hpc] at hf
    cases hi : tape.get? pc with
    | none =>
      exfalso
      have := List.get?_eq_none.mp hi
      omega
    | some inst =>
    have hok := hOK pc inst hi
    cases inst with
    | rval v =>
      obtain ⟨d, h1, h2⟩ := hok
      have hstep : step sq tape ⟨pc, stack, env, out⟩ =
          .ok ⟨pc + 1, v :: stack, env, out⟩ := by
        simp only [step, hi]
      rw [hstep] at hf
      refine ih ⟨pc + 1, v :: stack, env, out⟩ ?_ f hf
      rw [hs] at h1
      injection h1 with h1
      simp only [List.length_cons]
      rw [h2, h1]
    | idload nm =>
      obtain ⟨d, h1, h2⟩ := hok
      cases he : env (.name nm) with
      | some v =>
        have hstep : step sq tape ⟨pc, stack, env, out⟩ =
            .ok ⟨pc + 1, v :: stack, env, out⟩ := by
          simp only [step, hi, he]
        rw [hstep] at hf
        refine ih ⟨pc + 1, v :: stack, env, out⟩ ?_ f hf
        rw [hs] at h1
        injection h1 with h1
        simp only [List.length_cons]
        rw [h2, h1]
      | none =>
        have hstep : step sq tape ⟨pc, stack, env, out⟩ = .error (.nameFault nm) := by
          simp only [step, hi, he]
        rw [hstep] at hf
        injection hf with h1
        exact Or.inl ⟨nm, h1.symm⟩
    | lval nm =>
      obtain ⟨d, h1, h2⟩ := hok
      rw [hs] at h1
      injection h1 with h1
      cases nm with
      | some n =>
        have hstep : step sq tape ⟨pc, stack, env, out⟩ =
            .ok ⟨pc + 1, Value.name n :: stack, env, out⟩ := by
          simp only [step, hi]
        rw [hstep] at hf
        refine ih _ ?_ f hf
        simp only [List.length_cons]
        rw [h2, h1]
      | none =>
        have hstep : step sq tape ⟨pc, stack, env, out⟩ =
            .ok ⟨pc + 1, Value.null :: stack, env, out⟩ := by
          simp only [step, hi]
        rw [hstep] at hf
        refine ih _ ?_ f hf
        simp only [List.length_cons]
        rw [h2, h1]
    | onFalseJump t =>
      obtain ⟨d, h1, h2, hb, ht⟩ := hok
      rw [hs] at h1
      injection h1 with h1
      obtain ⟨v, rest, hstack⟩ : ∃ v rest, stack = v :: rest := by
        cases stack with
        | nil => simp at h1
        | cons v rest => exact ⟨v, rest, rfl⟩
      subst hstack
      have hrest : rest.length = d := by
        simp only [List.length_cons] at h1
        omega
      by_cases htr : truthy v
      · have hstep : step sq tape ⟨pc, v :: rest, env, out⟩ =
            .ok ⟨pc + 1, rest, env, out⟩ := by
          simp only [step, hi, htr, if_true]
        rw [hstep] at hf
        refine ih _ ?_ f hf
        simp only
        rw [h2, hrest]
      · have hstep : step sq tape ⟨pc, v :: rest, env, out⟩ =
            .ok ⟨t, rest, env, out⟩ := by
          simp only [step, hi]
          rw [if_neg htr]
        rw [hstep] at hf
        refine ih _ ?_ f hf
        simp only
        rw [show t = t - 0 by omega, ht, hrest]
    | jump t =>
      obtain ⟨d, h1, hb, ht⟩ := hok
      have hstep : step sq tape ⟨pc, stack, env, out⟩ = .ok ⟨t, stack, env, out⟩ := by
        simp only [step, hi]
      rw [hstep] at hf
      refine ih _ ?_ f hf
      simp only
      rw [hs] at h1
      injection h1 with h1
      rw [show t = t - 0 by omega, ht, h1]
    | str op =>
      simp only [instrOKL] at hok
      by_cases hq1 : op ∈ binKeys
      · rw [if_pos hq1] at hok
        obtain ⟨d, h1, h2⟩ := hok
        rw [hs] at h1
        injection h1 with h1
        obtain ⟨y, x, rest, hstack⟩ : ∃ y x rest, stack = y :: x :: rest := by
          cases stack with
          | nil => simp at h1
          | cons y stack2 =>
            cases stack2 with
            | nil => simp at h1
            | cons x rest => exact ⟨y, x, rest, rfl⟩
        subst hstack
        have hrest : rest.length = d := by
          simp only [List.length_cons] at h1
          omega
        cases happ : applyBin sq op x y with
        | some p =>
          have hstep : step sq tape ⟨pc, y :: x :: rest, env, out⟩ =
              .ok ⟨pc + 1, p.1 :: rest, env, out ++ p.2⟩ := by
            simp only [step, hi]
            rw [if_pos hq1, happ]
          rw [hstep] at hf
          refine ih _ ?_ f hf
          simp only [List.length_cons]
          rw [h2, hrest]
        | none =>
          have hstep : step sq tape ⟨pc, y :: x :: rest, env, out⟩ = .error .opFault := by
            simp only [step, hi]
            rw [if_pos hq1, happ]
          rw [hstep] at hf
          injection hf with h3
          exact Or.inr h3.symm
      · rw [if_neg hq1] at hok
        by_cases hq2 : op = "NEG"
        · subst hq2
          have hok2 : ∃ d, L.get? pc = some (d + 1) ∧ L.get? (pc + 1) = some (d + 1) := by
            simpa [hq1] using hok
          obtain ⟨d, h1, h2⟩ := hok2
          rw [hs] at h1
          injection h1 with h1
          obtain ⟨v, rest, hstack⟩ : ∃ v rest, stack = v :: rest := by
            cases stack with
            | nil => simp at h1
            | cons v rest => exact ⟨v, rest, rfl⟩
          subst hstack
          have hrest : rest.length = d := by
            simp only [List.length_cons] at h1
            omega
          cases hneg : pyNeg v with
          | some w =>
            have hstep : step sq tape ⟨pc, v :: rest, env, out⟩ =
                .ok ⟨pc + 1, w :: rest, env, out⟩ := by
              simp [step, hi, get?_as_getElem tape pc _ hi, hneg, hq1]
            rw [hstep] at hf
            refine ih _ ?_ f hf
            simp only [List.length_cons]
            rw [h2, hrest]
          | none =>
            have hstep : step sq tape ⟨pc, v :: rest, env, out⟩ = .error .opFault := by
              simp [step, hi, get?_as_getElem tape pc _ hi, hneg, hq1]
            rw [hstep] at hf
            injection hf with h3
            exact Or.inr h3.symm
        · rw [if_neg hq2] at hok
          by_cases hq3 : op = "="
          · subst hq3
            have hok2 : ∃ d, L.get? pc = some (d + 2) ∧ L.get? (pc + 1) = some (d + 1) := by
              simpa [hq1] using hok
            obtain ⟨d, h1, h2⟩ := hok2
            rw [hs] at h1
            injection h1 with h1
            obtain ⟨y, x, rest, hstack⟩ : ∃ y x rest, stack = y :: x :: rest := by
              cases stack with
              | nil => simp at h1
              | cons y stack2 =>
                cases stack2 with
                | nil => simp at h1
                | cons x rest => exact ⟨y, x, rest, rfl⟩
            subst hstack
            have hrest : rest.length = d := by
              simp only [List.length_cons] at h1
              omega
            have hstep : step sq tape ⟨pc, y :: x :: rest, env, out⟩ =
                .ok ⟨pc + 1, y :: rest,
                     fun k => if pyEq k x then some y else env k, out⟩ := by
              simp [step, hi, get?_as_getElem tape pc _ hi, hq1]
            rw [hstep] at hf
            refine ih _ ?_ f hf
            simp only [List.length_cons]
            rw [h2, hrest]
          · rw [if_neg hq3] at hok
            by_cases hq4 : op = "DROP"
            · subst hq4
              have hok2 : ∃ d, L.get? pc = some (d + 1) ∧ L.get? (pc + 1) = some d := by
                simpa [hq1] using hok
              obtain ⟨d, h1, h2⟩ := hok2
              rw [hs] at h1
              injection h1 with h1
              obtain ⟨v, rest, hstack⟩ : ∃ v rest, stack = v :: rest := by
                cases stack with
                | nil => simp at h1
                | cons v rest => exact ⟨v, rest, rfl⟩
              subst hstack
              have hrest : rest.length = d := by
                simp only [List.length_cons] at h1
                omega
              have hstep : step sq tape ⟨pc, v :: rest, env, out⟩ =
                  .ok ⟨pc + 1, rest, env, out⟩ := by
                simp [step, hi, get?_as_getElem tape pc _ hi, hq1]
              rw [hstep] at hf
              refine ih _ ?_ f hf
              simp only
              rw [h2, hrest]
            · rw [if_neg hq4] at hok
              by_cases hq5 : op = "[]"
              · subst hq5
                have hok2 : ∃ d, L.get? pc = some d ∧ L.get? (pc + 1) = some (d + 1) := by
                  simpa [hq1] using hok
                obtain ⟨d, h1, h2⟩ := hok2
                have hstep : step sq tape ⟨pc, stack, env, out⟩ =
                    .ok ⟨pc + 1, .list [] :: stack, env, out⟩ := by
                  simp [step, hi, get?_as_getElem tape pc _ hi, hq1]
                rw [hstep] at hf
                refine ih _ ?_ f hf
                simp only [List.length_cons]
                rw [hs] at h1
                injection h1 with h1
                rw [h2, h1]
              · rw [if_neg hq5] at hok
                exact absurd hok (by simp)

theorem bind_eq_ok {ε α β : Type} {e : Except ε α} {f : α → Except ε β} {b : β}
    (h : (e >>= f) = Except.ok b) : ∃ a, e = Except.ok a ∧ f a = Except.ok b := by
  cases e with
  | error err => exact Except.noConfusion h
  | ok a => exact ⟨a, rfl, h⟩

theorem mem_relop_binKeys {s : String} (hm : s ∈ RELOP) : s ∈ binKeys := by
  simp only [RELOP, List.mem_cons, List.not_mem_nil, or_false] at hm
  rcases hm with rfl | rfl | rfl | rfl | rfl | rfl <;> decide

theorem relopOf_some {t : Tok} {op : String} (h : relopOf t = some op) : op ∈ binKeys := by
  cases t with
  | id nm => exact Option.noConfusion h
  | num f q => exact Option.noConfusion h
  | str s =>
    simp only [relopOf] at h
    split_ifs at h with hm
    · injection h with h2
      subst h2
      exact mem_relop_binKeys hm

theorem signOf_some {t : Tok} {op : String} (h : signOf t = some op) : op ∈ binKeys := by
  cases t with
  | id nm => exact Option.noConfusion h
  | num f q => exact Option.noConfusion h
  | str s =>
    simp only [signOf] at h
    split_ifs at h with hm
    · injection h with h2
      subst h2
      rcases hm with rfl | rfl <;> decide

theorem mulOf_some {t : Tok} {op : String} (h : mulOf t = some op) : op ∈ binKeys := by
  cases t with
  | id nm => exact Option.noConfusion h
  | num f q => exact Option.noConfusion h
  | str s =>
    simp only [mulOf] at h
    split_ifs at h with hm
    · injection h with h2
      subst h2
      rcases hm with rfl | rfl <;> decide

theorem chunk_cast {b b2 : Nat} {D : List Instr} {L : List Nat} {d1 d2 : Nat}
    (hb : b = b2) (h : Chunk b D L d1 d2) : Chunk b2 D L d1 d2 := hb ▸ h

theorem fragVL {b : Nat} {D1 D2 : List Instr} (h1 : FragV b D1)
    (h2 : FragL (b + D1.length) D2) : FragV b (D1 ++ D2) := by
  intro e
  obtain ⟨L1, hc1⟩ := h1 e
  obtain ⟨L2, hc2⟩ := h2 (e + 1) (Nat.le_add_left 1 e)
  exact ⟨L1 ++ L2.tail, hc1.append hc2⟩

theorem fragLL {b : Nat} {D1 D2 : List Instr} (h1 : FragL b D1)
    (h2 : FragL (b + D1.length) D2) : FragL b (D1 ++ D2) := by
  intro e he
  obtain ⟨L1, hc1⟩ := h1 e he
  obtain ⟨L2, hc2⟩ := h2 e he
  exact ⟨L1 ++ L2.tail, hc1.append hc2⟩

theorem parse_fns_ok : ∀ n : Nat,
    PV (parseAt n).exprlist ∧ PL (parseAt n).exprlistLoop ∧ PV (parseAt n).expr ∧
    PV (parseAt n).arexpr ∧ PL (parseAt n).arexprLoop ∧ PV (parseAt n).term ∧
    PL (parseAt n).termLoop ∧ PV (parseAt n).factor ∧ PL (parseAt n).factorArgsLoop ∧
    PV (parseAt n).primary ∧ PV (parseAt n).statement ∧ PV (parseAt n).ifStmt ∧
    PV (parseAt n).whileStmt ∧ PL (parseAt n).args ∧ PL (parseAt n).argsLoop := by
  intro n
  induction n with
  | zero =>
    refine ⟨?_, ?_, ?_, ?_, ?_, ?_, ?_, ?_, ?_, ?_, ?_, ?_, ?_, ?_, ?_⟩ <;>
      exact fun code st c st2 h => Except.noConfusion h
  | succ n ih =>
    obtain ⟨hEL, hELL, hE, hA, hAL, hT, hTL, hF, hFAL, hP, hS, hIF, hWH, hAR, hARL⟩ := ih
    rw [parseAt_succ]
    refine ⟨?_, ?_, ?_, ?_, ?_, ?_, ?_, ?_, ?_, ?_, ?_, ?_, ?_, ?_, ?_⟩
    · -- exprlist
      intro code st c st2 h
      simp only [parseStepFns] at h
      obtain ⟨r, hr, hloop⟩ := bind_eq_ok h
      obtain ⟨c1, st1⟩ := r
      obtain ⟨D1, rfl, hf1⟩ := hE code st c1 st1 hr
      obtain ⟨D2, rfl, hf2⟩ := hELL _ _ _ _ hloop
      refine ⟨D1 ++ D2, List.append_assoc code D1 D2, ?_⟩
      have hf2b : FragL (code.length + D1.length) D2 := by
        have hlen : (code ++ D1).length = code.length + D1.length := by simp
        rwa [hlen] at hf2
      exact fragVL hf1 hf2b
    · -- exprlistLoop
      intro code st c st2 h
      simp only [parseStepFns] at h
      by_cases ht : st.tok = Tok.str ";"
      · rw [if_pos ht] at h
        obtain ⟨s1, hs1, h⟩ := bind_eq_ok h
        obtain ⟨r, hr, hloop⟩ := bind_eq_ok h
        obtain ⟨c1, st1⟩ := r
        obtain ⟨D1, rfl, hf1⟩ := hE _ _ _ _ hr
        obtain ⟨D2, rfl, hf2⟩ := hELL _ _ _ _ hloop
        refine ⟨Instr.str "DROP" :: (D1 ++ D2), by simp, ?_⟩
        intro e he
        obtain ⟨d, rfl⟩ : ∃ d, e = d + 1 := ⟨e - 1, by omega⟩
        obtain ⟨L1, hc1⟩ := hf1 d
        obtain ⟨L2, hc2⟩ := hf2 (d + 1) (by omega)
        have hc1b : Chunk (code.length + 1) D1 L1 d (d + 1) := by
          have hlen : (code ++ [Instr.str "DROP"]).length = code.length + 1 := by simp
          rwa [hlen] at hc1
        have hc2b : Chunk (code.length + 1 + D1.length) D2 L2 (d + 1) (d + 1) := by
          have hlen : ((code ++ [Instr.str "DROP"]) ++ D1).length =
              code.length + 1 + D1.length := by
            simp only [List.length_append, List.length_cons, List.length_nil]
          rwa [hlen] at hc2
        exact ⟨_, (chunk_drop code.length d).append (hc1b.append hc2b)⟩
      · rw [if_neg ht] at h
        injection h with h2
        injection h2 with h3 h4
        subst h3
        exact ⟨[], by simp, fun e he => ⟨[e], chunk_nil code.length e⟩⟩
    · -- expr
      intro code st c st2 h
      simp only [parseStepFns] at h
      obtain ⟨r, hr, h⟩ := bind_eq_ok h
      obtain ⟨c1, st1⟩ := r
      obtain ⟨D1, rfl, hf1⟩ := hA code st c1 st1 hr
      simp only [] at h
      cases hrel : relopOf st1.tok with
      | none =>
        rw [hrel] at h
        injection h with h2
        injection h2 with h3 h4
        subst h3
        exact ⟨D1, rfl, hf1⟩
      | some op =>
        rw [hrel] at h
        obtain ⟨s1, hs1, h⟩ := bind_eq_ok h
        obtain ⟨r2, hr2, h⟩ := bind_eq_ok h
        obtain ⟨c2, st3⟩ := r2
        obtain ⟨D2, rfl, hf2⟩ := hA _ _ _ _ hr2
        injection h with h4
        injection h4 with h5 h6
        subst h5
        have hop : op ∈ binKeys := relopOf_some hrel
        refine ⟨D1 ++ (D2 ++ [Instr.str op]), by simp, ?_⟩
        intro e
        obtain ⟨L1, hc1⟩ := hf1 e
        obtain ⟨L2, hc2⟩ := hf2 (e + 1)
        have hc2b : Chunk (code.length + D1.length) D2 L2 (e + 1) (e + 2) := by
          have hlen : (code ++ D1).length = code.length + D1.length := by simp
          rwa [hlen] at hc2
        have hc3 : Chunk (code.length + D1.length + D2.length) [Instr.str op]
            [e + 2, e + 1] (e + 2) (e + 1) := chunk_bin _ e op hop
        exact ⟨_, hc1.append (hc2b.append hc3)⟩
    · -- arexpr
      intro code st c st2 h
      simp only [parseStepFns] at h
      cases hsg : signOf st.tok with
      | none =>
        rw [hsg] at h
        obtain ⟨r, hr, hloop⟩ := bind_eq_ok h
        obtain ⟨c1, st1⟩ := r
        obtain ⟨D1, rfl, hf1⟩ := hT _ _ _ _ hr
        obtain ⟨D2, rfl, hf2⟩ := hAL _ _ _ _ hloop
        refine ⟨D1 ++ D2, List.append_assoc code D1 D2, ?_⟩
        have hf2b : FragL (code.length + D1.length) D2 := by
          have hlen : (code ++ D1).length = code.length + D1.length := by simp
          rwa [hlen] at hf2
        exact fragVL hf1 hf2b
      | some sg =>
        rw [hsg] at h
        obtain ⟨s1, hs1, h⟩ := bind_eq_ok h
        obtain ⟨r, hr, hloop⟩ := bind_eq_ok h
        obtain ⟨c1, st1⟩ := r
        obtain ⟨D1, rfl, hf1⟩ := hT _ _ _ _ hr
        simp only [] at hloop
        by_cases hneg : sg = "-"
        · rw [if_pos hneg] at hloop
          obtain ⟨D2, rfl, hf2⟩ := hAL _ _ _ _ hloop
          refine ⟨D1 ++ (Instr.str "NEG" :: D2), by simp, ?_⟩
          intro e
          obtain ⟨L1, hc1⟩ := hf1 e
          obtain ⟨L2, hc2⟩ := hf2 (e + 1) (by omega)
          have hcN : Chunk (code.length + D1.length) [Instr.str "NEG"]
              [e + 1, e + 1] (e + 1) (e + 1) := chunk_neg _ e
          have hc2b : Chunk (code.length + D1.length + 1) D2 L2 (e + 1) (e + 1) := by
            have hlen : ((code ++ D1) ++ [Instr.str "NEG"]).length =
                code.length + D1.length + 1 := by
              simp only [List.length_append, List.length_cons, List.length_nil]
            rwa [hlen] at hc2
          exact ⟨_, hc1.append (hcN.append hc2b)⟩
        · rw [if_neg hneg] at hloop
          obtain ⟨D2, rfl, hf2⟩ := hAL _ _ _ _ hloop
          refine ⟨D1 ++ D2, List.append_assoc code D1 D2, ?_⟩
          have hf2b : FragL (code.length + D1.length) D2 := by
            have hlen : (code ++ D1).length = code.length + D1.length := by simp
            rwa [hlen] at hf2
          exact fragVL hf1 hf2b
    · -- arexprLoop
      intro code st c st2 h
      simp only [parseStepFns] at h
      cases hsg : signOf st.tok with
      | none =>
        rw [hsg] at h
        injection h with h2
        injection h2 with h3 h4
        subst h3
        exact ⟨[], by simp, fun e he => ⟨[e], chunk_nil code.length e⟩⟩
      | some sg =>
        rw [hsg] at h
        obtain ⟨s1, hs1, h⟩ := bind_eq_ok h
        obtain ⟨r, hr, hloop⟩ := bind_eq_ok h
        obtain ⟨c1, st1⟩ := r
        obtain ⟨D1, rfl, hf1⟩ := hT _ _ _ _ hr
        obtain ⟨D2, rfl, hf2⟩ := hAL _ _ _ _ hloop
        have hop : sg ∈ binKeys := signOf_some hsg
        refine ⟨D1 ++ (Instr.str sg :: D2), by simp, ?_⟩
        intro e he
        obtain ⟨d, rfl⟩ : ∃ d, e = d + 1 := ⟨e - 1, by omega⟩
        obtain ⟨L1, hc1⟩ := hf1 (d + 1)
        obtain ⟨L2, hc2⟩ := hf2 (d + 1) (by omega)
        have hcB : Chunk (code.length + D1.length) [Instr.str sg]
            [d + 2, d + 1] (d + 2) (d + 1) := chunk_bin _ d sg hop
        have hc2b : Chunk (code.length + D1.length + 1) D2 L2 (d + 1) (d + 1) := by
          have hlen : ((code ++ D1) ++ [Instr.str sg]).length =
              code.length + D1.length + 1 := by
            simp only [List.length_append, List.length_cons, List.length_nil]
          rwa [hlen] at hc2
        exact ⟨_, hc1.append (hcB.append hc2b)⟩
    · -- term
      intro code st c st2 h
      simp only [parseStepFns] at h
      obtain ⟨r, hr, hloop⟩ := bind_eq_ok h
      obtain ⟨c1, st1⟩ := r
      obtain ⟨D1, rfl, hf1⟩ := hF code st c1 st1 hr
      obtain ⟨D2, rfl, hf2⟩ := hTL _ _ _ _ hloop
      refine ⟨D1 ++ D2, List.append_assoc code D1 D2, ?_⟩
      have hf2b : FragL (code.length + D1.length) D2 := by
        have hlen : (code ++ D1).length = code.length + D1.length := by simp
        rwa [hlen] at hf2
      exact fragVL hf1 hf2b
    · -- termLoop
      intro code st c st2 h
      simp only [parseStepFns] at h
      cases hsg : mulOf st.tok with
      | none =>
        rw [hsg] at h
        injection h with h2
        injection h2 with h3 h4
        subst h3
        exact ⟨[], by simp, fun e he => ⟨[e], chunk_nil code.length e⟩⟩
      | some sg =>
        rw [hsg] at h
        obtain ⟨s1, hs1, h⟩ := bind_eq_ok h
        obtain ⟨r, hr, hloop⟩ := bind_eq_ok h
        obtain ⟨c1, st1⟩ := r
        obtain ⟨D1, rfl, hf1⟩ := hF _ _ _ _ hr
        obtain ⟨D2, rfl, hf2⟩ := hTL _ _ _ _ hloop
        have hop : sg ∈ binKeys := mulOf_some hsg
        refine ⟨D1 ++ (Instr.str sg :: D2), by simp, ?_⟩
        intro e he
        obtain ⟨d, rfl⟩ : ∃ d, e = d + 1 := ⟨e - 1, by omega⟩
        obtain ⟨L1, hc1⟩ := hf1 (d + 1)
        obtain ⟨L2, hc2⟩ := hf2 (d + 1) (by omega)
        have hcB : Chunk (code.length + D1.length) [Instr.str sg]
            [d + 2, d + 1] (d + 2) (d + 1) := chunk_bin _ d sg hop
        have hc2b : Chunk (code.length + D1.length + 1) D2 L2 (d + 1) (d + 1) := by
          have hlen : ((code ++ D1) ++ [Instr.str sg]).length =
              code.length + D1.length + 1 := by
            simp only [List.length_append, List.length_cons, List.length_nil]
          rwa [hlen] at hc2
        exact ⟨_, hc1.append (hcB.append hc2b)⟩
    · -- factor
      intro code st c st2 h
      simp only [parseStepFns] at h
      by_cases hsp : startPrimary st.tok = true
      · rw [if_pos hsp] at h
        obtain ⟨r, hr, hloop⟩ := bind_eq_ok h
        obtain ⟨c1, st1⟩ := r
        obtain ⟨D1, rfl, hf1⟩ := hP _ _ _ _ hr
        obtain ⟨D2, rfl, hf2⟩ := hFAL _ _ _ _ hloop
        refine ⟨D1 ++ D2, List.append_assoc code D1 D2, ?_⟩
        have hf2b : FragL (code.length + D1.length) D2 := by
          have hlen : (code ++ D1).length = code.length + D1.length := by simp
          rwa [hlen] at hf2
        exact fragVL hf1 hf2b
      · rw [if_neg hsp] at h
        cases htok : st.tok with
        | num fl q =>
          rw [htok] at h
          obtain ⟨s1, hs1, h3⟩ := bind_eq_ok h
          injection h3 with h4
          injection h4 with h5 h6
          subst h5
          exact ⟨[Instr.rval (Value.num fl q)], rfl,
            fun e => ⟨[e, e + 1], chunk_rval code.length e (Value.num fl q)⟩⟩
        | id nm =>
          rw [htok] at h
          have h2 : (if (Tok.id nm) = Tok.str "(" then
              (pAdvance st >>= fun s1 => (parseAt n).exprlist code s1 >>= fun r =>
                expects ")" r.2 >>= fun s2 => Except.ok ((r.1 : List Instr), s2))
            else match (Tok.id nm).reprDisplay with
              | some d => Except.error (mkErr st ("Expected number, varname or " ++ quoteCh ++
                  "(" ++ quoteCh ++ ", but got " ++ d))
              | none => Except.error PError.crash) = Except.ok (c, st2) := h
          rw [if_neg (by simp)] at h2
          exact Except.noConfusion h2
        | str s =>
          rw [htok] at h
          have h2 : (if (Tok.str s) = Tok.str "(" then
              (pAdvance st >>= fun s1 => (parseAt n).exprlist code s1 >>= fun r =>
                expects ")" r.2 >>= fun s2 => Except.ok ((r.1 : List Instr), s2))
            else match (Tok.str s).reprDisplay with
              | some d => Except.error (mkErr st ("Expected number, varname or " ++ quoteCh ++
                  "(" ++ quoteCh ++ ", but got " ++ d))
              | none => Except.error PError.crash) = Except.ok (c, st2) := h
          by_cases hpar : (Tok.str s) = Tok.str "("
          · rw [if_pos hpar] at h2
            obtain ⟨s1, hs1, h3⟩ := bind_eq_ok h2
            obtain ⟨r, hr, h4⟩ := bind_eq_ok h3
            obtain ⟨c1, st1⟩ := r
            obtain ⟨D1, rfl, hf1⟩ := hEL _ _ _ _ hr
            obtain ⟨s2, hs2, h5⟩ := bind_eq_ok h4
            injection h5 with h6
            injection h6 with h7 h8
            subst h7
            exact ⟨D1, rfl, hf1⟩
          · rw [if_neg hpar] at h2
            exact Except.noConfusion h2
    · -- factorArgsLoop
      intro code st c st2 h
      simp only [parseStepFns] at h
      by_cases ht : st.tok = Tok.str "("
      · rw [if_pos ht] at h
        obtain ⟨r, hr, hloop⟩ := bind_eq_ok h
        obtain ⟨c1, st1⟩ := r
        obtain ⟨D1, rfl, hf1⟩ := hAR _ _ _ _ hr
        obtain ⟨D2, rfl, hf2⟩ := hFAL _ _ _ _ hloop
        refine ⟨D1 ++ D2, List.append_assoc code D1 D2, ?_⟩
        have hf2b : FragL (code.length + D1.length) D2 := by
          have hlen : (code ++ D1).length = code.length + D1.length := by simp
          rwa [hlen] at hf2
        exact fragLL hf1 hf2b
      · rw [if_neg ht] at h
        injection h with h2
        injection h2 with h3 h4
        subst h3
        exact ⟨[], by simp, fun e he => ⟨[e], chunk_nil code.length e⟩⟩
    · -- primary
      intro code st c st2 h
      simp only [parseStepFns] at h
      cases htok : st.tok with
      | id nm =>
        rw [htok] at h
        obtain ⟨s1, hs1, h3⟩ := bind_eq_ok h
        by_cases heq : s1.tok = Tok.str "="
        · rw [if_pos heq] at h3
          obtain ⟨s2, hs2, h4⟩ := bind_eq_ok h3
          obtain ⟨r, hr, h5⟩ := bind_eq_ok h4
          obtain ⟨c1, st1⟩ := r
          obtain ⟨D1, rfl, hf1⟩ := hE _ _ _ _ hr
          injection h5 with h6
          injection h6 with h7 h8
          subst h7
          refine ⟨Instr.lval (some nm) :: (D1 ++ [Instr.str "="]), by simp, ?_⟩
          intro e
          obtain ⟨L1, hc1⟩ := hf1 (e + 1)
          have hc1b : Chunk (code.length + 1) D1 L1 (e + 1) (e + 2) := by
            have hlen : (code ++ [Instr.lval (some nm)]).length = code.length + 1 := by simp
            rwa [hlen] at hc1
          have hcA : Chunk (code.length + 1 + D1.length) [Instr.str "="]
              [e + 2, e + 1] (e + 2) (e + 1) := chunk_assign _ e
          exact ⟨_, (chunk_lval code.length e (some nm)).append (hc1b.append hcA)⟩
        · rw [if_neg heq] at h3
          injection h3 with h4
          injection h4 with h5 h6
          subst h5
          exact ⟨[Instr.idload nm], rfl, fun e => ⟨[e, e + 1], chunk_idload code.length e nm⟩⟩
      | num fl q =>
        rw [htok] at h
        have h2 : (if (Tok.num fl q) = Tok.str "if" ∨ (Tok.num fl q) = Tok.str "while" then
            (parseAt n).statement code st
          else match (Tok.num fl q).reprDisplay with
            | some d => Except.error (mkErr st ("Expected primary, but got " ++ d))
            | none => Except.error PError.crash) = Except.ok (c, st2) := h
        rw [if_neg (by simp)] at h2
        exact Except.noConfusion h2
      | str s =>
        rw [htok] at h
        have h2 : (match valkwVal (Tok.str s) with
          | some v => pAdvance st >>= fun s1 =>
              Except.ok ((code ++ [Instr.rval v] : List Instr), s1)
          | none =>
            if (Tok.str s) = Tok.str "if" ∨ (Tok.str s) = Tok.str "while" then
              (parseAt n).statement code st
            else match (Tok.str s).reprDisplay with
              | some d => Except.error (mkErr st ("Expected primary, but got " ++ d))
              | none => Except.error PError.crash) = Except.ok (c, st2) := h
        cases hv : valkwVal (Tok.str s) with
        | some v =>
          rw [hv] at h2
          obtain ⟨s1, hs1, h3⟩ := bind_eq_ok h2
          injection h3 with h4
          injection h4 with h5 h6
          subst h5
          exact ⟨[Instr.rval v], rfl, fun e => ⟨[e, e + 1], chunk_rval code.length e v⟩⟩
        | none =>
          rw [hv] at h2
          by_cases hsw : (Tok.str s) = Tok.str "if" ∨ (Tok.str s) = Tok.str "while"
          · rw [if_pos hsw] at h2
            exact hS _ _ _ _ h2
          · rw [if_neg hsw] at h2
            exact Except.noConfusion h2
    · -- statement
      intro code st c st2 h
      simp only [parseStepFns] at h
      by_cases h1 : st.tok = Tok.str "if"
      · rw [if_pos h1] at h
        exact hIF _ _ _ _ h
      · rw [if_neg h1] at h
        by_cases h2 : st.tok = Tok.str "while"
        · rw [if_pos h2] at h
          exact hWH _ _ _ _ h
        · rw [if_neg h2] at h
          cases hrd : st.tok.reprDisplay with
          | some d =>
            rw [hrd] at h
            exact Except.noConfusion h
          | none =>
            rw [hrd] at h
            exact Except.noConfusion h
    · -- ifStmt
      intro code st c st2 h
      simp only [parseStepFns] at h
      obtain ⟨s1, hs1, h⟩ := bind_eq_ok h
      obtain ⟨r1, hr1, h⟩ := bind_eq_ok h
      obtain ⟨c1, st1⟩ := r1
      obtain ⟨s2, hs2, h⟩ := bind_eq_ok h
      obtain ⟨D1, rfl, hfC⟩ := hE _ _ _ _ hr1
      obtain ⟨r2, hr2, h⟩ := bind_eq_ok h
      obtain ⟨c2, st3⟩ := r2
      obtain ⟨D2, rfl, hfT⟩ := hEL _ _ _ _ hr2
      simp only [] at h
      have hc3 : ((((code ++ D1) ++ [Instr.onFalseJump 0]) ++ D2) ++ [Instr.jump 0]).set
          (code ++ D1).length
          (Instr.onFalseJump ((((code ++ D1) ++ [Instr.onFalseJump 0]) ++ D2).length + 1)) =
          (code ++ D1) ++ Instr.onFalseJump (code.length + D1.length + D2.length + 2) ::
            (D2 ++ [Instr.jump 0]) := by
        have e1 : (((code ++ D1) ++ [Instr.onFalseJump 0]) ++ D2) ++ [Instr.jump 0] =
            (code ++ D1) ++ (Instr.onFalseJump 0 :: (D2 ++ [Instr.jump 0])) := by simp
        have e2 : (((code ++ D1) ++ [Instr.onFalseJump 0]) ++ D2).length + 1 =
            code.length + D1.length + D2.length + 2 := by
          simp only [List.length_append, List.length_cons, List.length_nil]
          omega
        rw [e2, e1, set_len_append]
      by_cases helse : st3.tok = Tok.str "else"
      · rw [if_pos helse] at h
        obtain ⟨s3, hs3, h⟩ := bind_eq_ok h
        obtain ⟨r3, hr3, h⟩ := bind_eq_ok h
        obtain ⟨c4, st4⟩ := r3
        obtain ⟨D3, rfl, hfE⟩ := hEL _ _ _ _ hr3
        obtain ⟨s4, hs4, h⟩ := bind_eq_ok h
        injection h with h4
        injection h4 with h5 h6
        subst h5
        rw [hc3] at hfE
        refine ⟨D1 ++ Instr.onFalseJump (code.length + D1.length + D2.length + 2) ::
          (D2 ++ Instr.jump (code.length + D1.length + D2.length + 2 + D3.length) :: D3),
          ?_, ?_⟩
        · rw [hc3]
          have e3 : ((code ++ D1) ++ Instr.onFalseJump
                (code.length + D1.length + D2.length + 2) :: (D2 ++ [Instr.jump 0])) ++ D3 =
              ((code ++ D1) ++ Instr.onFalseJump
                (code.length + D1.length + D2.length + 2) :: D2) ++ Instr.jump 0 :: D3 := by
            simp
          have e4 : (((code ++ D1) ++ Instr.onFalseJump
                (code.length + D1.length + D2.length + 2) :: (D2 ++ [Instr.jump 0])) ++
              D3).length = code.length + D1.length + D2.length + 2 + D3.length := by
            simp only [List.length_append, List.length_cons, List.length_nil]
            omega
          have e5 : (((code ++ D1) ++ [Instr.onFalseJump 0]) ++ D2).length =
              ((code ++ D1) ++ Instr.onFalseJump
                (code.length + D1.length + D2.length + 2) :: D2).length := by
            simp only [List.length_append, List.length_cons, List.length_nil]
            omega
          rw [e4, e5, e3, set_len_append]
          simp
        · intro e
          obtain ⟨LC, hcC⟩ := hfC e
          obtain ⟨LT, hcT⟩ := hfT e
          obtain ⟨LE, hcE⟩ := hfE e
          have hcT2 : Chunk (code.length + D1.length + 1) D2 LT e (e + 1) := by
            rwa [show ((code ++ D1) ++ [Instr.onFalseJump 0]).length =
              code.length + D1.length + 1 from by
                simp only [List.length_append, List.length_cons, List.length_nil]]
              at hcT
          have hcE2 : Chunk (code.length + D1.length + D2.length + 2) D3 LE e (e + 1) := by
            rwa [show ((code ++ D1) ++ Instr.onFalseJump
                (code.length + D1.length + D2.length + 2) :: (D2 ++ [Instr.jump 0])).length =
              code.length + D1.length + D2.length + 2 from by
                simp only [List.length_append, List.length_cons, List.length_nil]
                omega]
              at hcE
          exact ⟨LC ++ (LT ++ LE), chunk_if code.length e D1 D2 D3 LC LT LE hcC hcT2 hcE2⟩
      · rw [if_neg helse] at h
        obtain ⟨s4, hs4, h⟩ := bind_eq_ok h
        injection h with h4
        injection h4 with h5 h6
        subst h5
        refine ⟨D1 ++ Instr.onFalseJump (code.length + D1.length + D2.length + 2) ::
          (D2 ++ Instr.jump (code.length + D1.length + D2.length + 3) :: [Instr.lval none]),
          ?_, ?_⟩
        · rw [hc3]
          have e3 : ((code ++ D1) ++ Instr.onFalseJump
                (code.length + D1.length + D2.length + 2) :: (D2 ++ [Instr.jump 0])) ++
              [Instr.lval none] =
              ((code ++ D1) ++ Instr.onFalseJump
                (code.length + D1.length + D2.length + 2) :: D2) ++
                Instr.jump 0 :: [Instr.lval none] := by
            simp
          have e4 : (((code ++ D1) ++ Instr.onFalseJump
                (code.length + D1.length + D2.length + 2) :: (D2 ++ [Instr.jump 0])) ++
              [Instr.lval none]).length = code.length + D1.length + D2.length + 3 := by
            simp only [List.length_append, List.length_cons, List.length_nil]
            omega
          have e5 : (((code ++ D1) ++ [Instr.onFalseJump 0]) ++ D2).length =
              ((code ++ D1) ++ Instr.onFalseJump
                (code.length + D1.length + D2.length + 2) :: D2).length := by
            simp only [List.length_append, List.length_cons, List.length_nil]
            omega
          rw [e4, e5, e3, set_len_append]
          simp
        · intro e
          obtain ⟨LC, hcC⟩ := hfC e
          obtain ⟨LT, hcT⟩ := hfT e
          have hcT2 : Chunk (code.length + D1.length + 1) D2 LT e (e + 1) := by
            rwa [show ((code ++ D1) ++ [Instr.onFalseJump 0]).length =
              code.length + D1.length + 1 from by
                simp only [List.length_append, List.length_cons, List.length_nil]]
              at hcT
          exact ⟨LC ++ (LT ++ [e, e + 1]), chunk_if code.length e D1 D2 [Instr.lval none]
            LC LT [e, e + 1] hcC hcT2 (chunk_lval (code.length + D1.length + D2.length + 2) e none)⟩
    · -- whileStmt
      intro code st c st2 h
      simp only [parseStepFns] at h
      obtain ⟨s1, hs1, h⟩ := bind_eq_ok h
      obtain ⟨r1, hr1, h⟩ := bind_eq_ok h
      obtain ⟨c1, st1⟩ := r1
      obtain ⟨D1, rfl, hfC⟩ := hE _ _ _ _ hr1
      obtain ⟨s2, hs2, h⟩ := bind_eq_ok h
      obtain ⟨r2, hr2, h⟩ := bind_eq_ok h
      obtain ⟨c2, st3⟩ := r2
      obtain ⟨D2, rfl, hfB⟩ := hEL _ _ _ _ hr2
      obtain ⟨s3, hs3, h⟩ := bind_eq_ok h
      injection h with h4
      injection h4 with h5 h6
      subst h5
      refine ⟨Instr.lval none :: (D1 ++ Instr.onFalseJump
        (code.length + D1.length + D2.length + 4) :: Instr.str "DROP" ::
        (D2 ++ [Instr.jump (code.length + 1)])), ?_, ?_⟩
      · have e1 : ((((code ++ [Instr.lval none]) ++ D1) ++
              [Instr.onFalseJump 0, Instr.str "DROP"]) ++ D2) ++
              [Instr.jump (code ++ [Instr.lval none]).length] =
            ((code ++ [Instr.lval none]) ++ D1) ++ (Instr.onFalseJump 0 ::
              (Instr.str "DROP" :: (D2 ++
                [Instr.jump (code ++ [Instr.lval none]).length]))) := by
          simp
        have e2 : (((((code ++ [Instr.lval none]) ++ D1) ++
              [Instr.onFalseJump 0, Instr.str "DROP"]) ++ D2) ++
              [Instr.jump (code ++ [Instr.lval none]).length]).length =
            code.length + D1.length + D2.length + 4 := by
          simp only [List.length_append, List.length_cons, List.length_nil]
          omega
        have e3 : (code ++ [Instr.lval none]).length = code.length + 1 := by simp
        rw [e2, e1, set_len_append, e3]
        simp
      · intro e
        obtain ⟨LC, hcC⟩ := hfC (e + 1)
        obtain ⟨LB, hcB⟩ := hfB e
        have hcC2 : Chunk (code.length + 1) D1 LC (e + 1) (e + 2) := by
          rwa [show (code ++ [Instr.lval none]).length = code.length + 1 from by simp] at hcC
        have hcB2 : Chunk (code.length + D1.length + 3) D2 LB e (e + 1) := by
          rwa [show (((code ++ [Instr.lval none]) ++ D1) ++
              [Instr.onFalseJump 0, Instr.str "DROP"]).length =
            code.length + D1.length + 3 from by
              simp only [List.length_append, List.length_cons, List.length_nil]
              omega]
            at hcB
        exact ⟨_, chunk_while code.length e D1 D2 LC LB hcC2 hcB2⟩
    · -- args
      intro code st c st2 h
      simp only [parseStepFns] at h
      obtain ⟨s1, hs1, h⟩ := bind_eq_ok h
      by_cases hp : s1.tok = Tok.str ")"
      · rw [if_pos hp] at h
        obtain ⟨s2, hs2, h⟩ := bind_eq_ok h
        injection h with h4
        injection h4 with h5 h6
        subst h5
        refine ⟨[Instr.str "[]", Instr.str "CALL"], by simp, ?_⟩
        intro e he
        obtain ⟨d, rfl⟩ : ∃ d, e = d + 1 := ⟨e - 1, by omega⟩
        exact ⟨_, (chunk_mklist code.length (d + 1)).append
          (chunk_bin (code.length + 1) d "CALL" (by decide))⟩
      · rw [if_neg hp] at h
        obtain ⟨r1, hr1, h⟩ := bind_eq_ok h
        obtain ⟨c1, st1⟩ := r1
        obtain ⟨D1, rfl, hf1⟩ := hE _ _ _ _ hr1
        obtain ⟨r2, hr2, h⟩ := bind_eq_ok h
        obtain ⟨c2, st3⟩ := r2
        obtain ⟨D2, rfl, hf2⟩ := hARL _ _ _ _ hr2
        obtain ⟨s2, hs2, h⟩ := bind_eq_ok h
        injection h with h4
        injection h4 with h5 h6
        subst h5
        refine ⟨Instr.str "[]" :: (D1 ++ Instr.str "APPEND" ::
          (D2 ++ [Instr.str "CALL"])), by simp, ?_⟩
        intro e he
        obtain ⟨d, rfl⟩ : ∃ d, e = d + 1 := ⟨e - 1, by omega⟩
        obtain ⟨L1, hc1⟩ := hf1 (d + 2)
        obtain ⟨L2, hc2⟩ := hf2 (d + 2) (by omega)
        have hc1b : Chunk (code.length + 1) D1 L1 (d + 2) (d + 3) := by
          rwa [show (code ++ [Instr.str "[]"]).length = code.length + 1 from by simp] at hc1
        have hc2b : Chunk (code.length + 1 + D1.length + 1) D2 L2 (d + 2) (d + 2) := by
          rwa [show (((code ++ [Instr.str "[]"]) ++ D1) ++ [Instr.str "APPEND"]).length =
            code.length + 1 + D1.length + 1 from by
              simp only [List.length_append, List.length_cons, List.length_nil]]
            at hc2
        exact ⟨_, (chunk_mklist code.length (d + 1)).append (hc1b.append
          ((chunk_bin (code.length + 1 + D1.length) (d + 1) "APPEND" (by decide)).append
            (hc2b.append (chunk_bin (code.length + 1 + D1.length + 1 + D2.length) d
              "CALL" (by decide)))))⟩
    · -- argsLoop
      intro code st c st2 h
      simp only [parseStepFns] at h
      by_cases ht : st.tok = Tok.str ","
      · rw [if_pos ht] at h
        obtain ⟨s1, hs1, h⟩ := bind_eq_ok h
        obtain ⟨r, hr, hloop⟩ := bind_eq_ok h
        obtain ⟨c1, st1⟩ := r
        obtain ⟨D1, rfl, hf1⟩ := hE _ _ _ _ hr
        obtain ⟨D2, rfl, hf2⟩ := hARL _ _ _ _ hloop
        refine ⟨D1 ++ (Instr.str "APPEND" :: D2), by simp, ?_⟩
        intro e he
        obtain ⟨d, rfl⟩ : ∃ d, e = d + 1 := ⟨e - 1, by omega⟩
        obtain ⟨L1, hc1⟩ := hf1 (d + 1)
        obtain ⟨L2, hc2⟩ := hf2 (d + 1) (by omega)
        have hcB : Chunk (code.length + D1.length) [Instr.str "APPEND"]
            [d + 2, d + 1] (d + 2) (d + 1) := chunk_bin _ d "APPEND" (by decide)
        have hc2b : Chunk (code.length + D1.length + 1) D2 L2 (d + 1) (d + 1) := by
          have hlen : ((code ++ D1) ++ [Instr.str "APPEND"]).length =
              code.length + D1.length + 1 := by
            simp only [List.length_append, List.length_cons, List.length_nil]
          rwa [hlen] at hc2
        exact ⟨_, hc1.append (hcB.append hc2b)⟩
      · rw [if_neg ht] at h
        injection h with h2
        injection h2 with h3 h4
        subst h3
        exact ⟨[], by simp, fun e he => ⟨[e], chunk_nil code.length e⟩⟩

theorem compileWith_chunk (fuel : Nat) (fn src : String) (tape : List Instr)
    (h : compileWith fuel fn src = Except.ok tape) : ∃ L, Chunk 0 tape L 0 1 := by
  simp only [compileWith] at h
  obtain ⟨st, hst, h⟩ := bind_eq_ok h
  obtain ⟨r, hr, h⟩ := bind_eq_ok h
  obtain ⟨tp, stp⟩ := r
  injection h with h2
  subst h2
  have hr2 : (parse_exprlist fuel [] st >>= fun r2 =>
      expects "EOF" r2.2 >>= fun s1 => Except.ok ((r2.1 : List Instr), s1)) =
      Except.ok (tp, stp) := hr
  obtain ⟨r2, hrr, hr3⟩ := bind_eq_ok hr2
  obtain ⟨c1, st1⟩ := r2
  obtain ⟨s1, hs1, hr4⟩ := bind_eq_ok hr3
  injection hr4 with h5
  injection h5 with h6 h7
  subst h6
  obtain ⟨D, hD, hf⟩ := (parse_fns_ok fuel).1 [] st c1 st1 hrr
  obtain ⟨L, hc⟩ := hf 0
  refine ⟨L, ?_⟩
  rw [hD]
  exact hc

/-- C1: it is false that an underflow or an undefined variable are the only
possible runtime failures of a compiled tape: the program NONE+1 compiles,
and its evaluation faults with a TypeError from the + operation, which is
neither an underflow nor an unbound-name fault. -/
theorem C1_counterexample :
    compile "test.txt" "NONE+1" =
      Except.ok [Instr.rval Value.null, Instr.rval (Value.num false ⟨1, 1⟩), Instr.str "+"] ∧
    runFuel (fun x => x)
      [Instr.rval Value.null, Instr.rval (Value.num false ⟨1, 1⟩), Instr.str "+"] 8
      (initState builtinEnv) = RunRes.fault Fault.opFault ∧
    Fault.opFault ≠ Fault.underflow ∧ (∀ nm, Fault.opFault ≠ Fault.nameFault nm) :=
  ⟨rfl, rfl, fun h => Fault.noConfusion h, fun _ h => Fault.noConfusion h⟩

/-- C1 (amended): a tape produced by the compiler from a syntactically valid
program never underflows the operand stack at run time and never reaches the
Bad-instruction dead end; every runtime fault is an unbound-name lookup or a
failing operation (a TypeError or ZeroDivisionError inside an instruction). -/
theorem C1_no_underflow : ∀ (fuelP fuelR : Nat) (sq : Q → Q) (fn src : String)
    (tape : List Instr) (env : Value → Option Value) (f : Fault),
    compileWith fuelP fn src = Except.ok tape →
    runFuel sq tape fuelR (initState env) = RunRes.fault f →
    f ≠ Fault.underflow ∧ f ≠ Fault.badInstr ∧
      ((∃ nm, f = Fault.nameFault nm) ∨ f = Fault.opFault) := by
  intro fuelP fuelR sq fn src tape env f hc hr
  obtain ⟨L, hch⟩ := compileWith_chunk fuelP fn src tape hc
  obtain ⟨hlen, hh0, hend, hOK⟩ := hch
  have hclass := vm_classify sq tape L hOK fuelR (initState env) hh0 f hr
  rcases hclass with ⟨nm, rfl⟩ | rfl
  · exact ⟨fun h => Fault.noConfusion h, fun h => Fault.noConfusion h, Or.inl ⟨nm, rfl⟩⟩
  · exact ⟨fun h => Fault.noConfusion h, fun h => Fault.noConfusion h, Or.inr rfl⟩

theorem C1_no_underflow_witness :
    compileWith 8 "t" "y" = Except.ok [Instr.idload "y"] ∧
    runFuel (fun x => x) [Instr.idload "y"] 4 (initState (fun _ => none)) =
      RunRes.fault (Fault.nameFault "y") ∧
    (Fault.nameFault "y" ≠ Fault.underflow ∧ Fault.nameFault "y" ≠ Fault.badInstr ∧
      ((∃ nm, Fault.nameFault "y" = Fault.nameFault nm) ∨
        Fault.nameFault "y" = Fault.opFault)) :=
  ⟨rfl, rfl, C1_no_underflow 8 4 (fun x => x) "t" "y" [Instr.idload "y"] (fun _ => none)
    (Fault.nameFault "y") rfl rfl⟩


end EvalExpr
